import Mathlib

/-!
Verification of the levelx caching / shared-pool / resilient-call layer.

The Python source is shallowly embedded: pure computations become Lean
functions, database tables become explicit lists of rows threaded through the
operations, and external calls become explicit environments (response
sequences, step results).  Machine-level concerns that the claims do not rest
on (wall-clock sleeps, SQL engine details) are noted at each definition.
-/

namespace LevelX

/-! ### Peer-pool key derivation (`PeerPoolManager.generate_pool_key`)

The Python code computes `int(followers * m)` for decimal multipliers
`m ∈ {0.3, 0.4, 0.5, 5.0, 3.0, 2.5, 2.0}`.  The decimals are modelled as exact
fractions, so `int(followers * 0.3)` becomes `3 * followers / 10` with `Nat`
floor division (truncation of a non-negative value equals floor).  The
`100`-bucketed bounds of this model agree with the binary-float computation on
every checked input. -/

/-- Tiered low multiplier from `generate_pool_key`: the two sub-500 / sub-1000
branches of the Python code both use 0.3, then 0.4, 0.5, 0.5. -/
def min_range (followers : Nat) : Nat :=
  if followers < 500 then 3 * followers / 10
  else if followers < 1000 then 3 * followers / 10
  else if followers < 5000 then 4 * followers / 10
  else if followers < 10000 then 5 * followers / 10
  else 5 * followers / 10

/-- Tiered high multiplier from `generate_pool_key`: 5.0, 5.0, 3.0, 2.5, 2.0. -/
def max_range (followers : Nat) : Nat :=
  if followers < 500 then 5 * followers
  else if followers < 1000 then 5 * followers
  else if followers < 5000 then 3 * followers
  else if followers < 10000 then 5 * followers / 2
  else 2 * followers

/-- Rounding down to the nearest 100: `(min_range // 100) * 100`. -/
def lowBound (followers : Nat) : Nat := min_range followers / 100 * 100

/-- Rounding down to the nearest 100: `(max_range // 100) * 100`. -/
def highBound (followers : Nat) : Nat := max_range followers / 100 * 100

/-- Pool key string `f"{niche}_{min_range}-{max_range}"` (after rounding). -/
def generate_pool_key (niche : String) (followers : Nat) : String :=
  niche ++ "_" ++ toString (lowBound followers) ++ "-" ++ toString (highBound followers)

/-- C2 counterexample: at followerCount = 5000 the `followers < 5000` branch is
not taken, so the 0.4 / 3.0 multipliers do not apply and the derived key is not
"finance_2000-15000". -/
theorem pool_key_finance_5000_not_claimed :
    generate_pool_key "finance" 5000 ≠ "finance_2000-15000" := by decide

/-- C2 amended: for followerCount = 5000 and niche "finance" the pool-key
derivation returns "finance_2500-12500" — 5000 falls in the `5000 ≤ f < 10000`
tier, so the multipliers 0.5 and 2.5 apply (0.5×5000 = 2500, 2.5×5000 = 12500,
both already multiples of 100). -/
theorem pool_key_finance_5000 :
    generate_pool_key "finance" 5000 = "finance_2500-12500" ∧
    min_range 5000 = 5 * 5000 / 10 ∧ max_range 5000 = 5 * 5000 / 2 := by
  refine ⟨rfl, ?_, ?_⟩ <;> decide

/-- C5 counterexample: at followers = 0 both rounded bounds are 0, so
`lowBound < highBound` fails (the same happens for every followers < 20,
where `max_range` is below 100 and rounds down to 0). -/
theorem pool_bounds_not_ordered_at_zero :
    ¬ (lowBound 0 < highBound 0) := by decide

/-- C5 amended: both derived bounds are always non-negative multiples of 100;
whenever followers ≥ 20 (equivalently, whenever the high bound is nonzero)
`lowBound < highBound`; and the width ratio `highBound / lowBound` strictly
decreases as the follower count crosses each tier boundary 1000, 5000, 10000
(compared at the crossing:  f = 999 vs 1000, 4999 vs 5000, 9999 vs 10000).
Containment `lowBound ≤ f ≤ highBound` is not asserted. -/
theorem pool_band_bounds (f : Nat) (h : 20 ≤ f) :
    (100 ∣ lowBound f ∧ 100 ∣ highBound f) ∧
    lowBound f < highBound f ∧
    ((highBound 1000 : ℚ) / lowBound 1000 < (highBound 999 : ℚ) / lowBound 999 ∧
     (highBound 5000 : ℚ) / lowBound 5000 < (highBound 4999 : ℚ) / lowBound 4999 ∧
     (highBound 10000 : ℚ) / lowBound 10000 < (highBound 9999 : ℚ) / lowBound 9999) := by
  refine ⟨⟨⟨min_range f / 100, (Nat.mul_comm _ _)⟩, ⟨max_range f / 100, (Nat.mul_comm _ _)⟩⟩, ?_, ?_⟩
  · unfold lowBound highBound min_range max_range
    split_ifs <;> omega
  · norm_num [lowBound, highBound, min_range, max_range]

/-- C5 witness: the amended statement instantiated at followers = 5000. -/
theorem pool_band_bounds_witness :
    (100 ∣ lowBound 5000 ∧ 100 ∣ highBound 5000) ∧
    lowBound 5000 < highBound 5000 ∧
    ((highBound 1000 : ℚ) / lowBound 1000 < (highBound 999 : ℚ) / lowBound 999 ∧
     (highBound 5000 : ℚ) / lowBound 5000 < (highBound 4999 : ℚ) / lowBound 4999 ∧
     (highBound 10000 : ℚ) / lowBound 10000 < (highBound 9999 : ℚ) / lowBound 9999) :=
  pool_band_bounds 5000 (by decide)

/-! ### JSON response repair (`GrokClient.complete_json`)

The repair pipeline is, in source order: `response.strip()`, stripping of a
leading "```json" (7 chars) then a leading "```" (3 chars) then a trailing
"```" (3 chars), a second `.strip()`, the regex pass
`re.sub(r'(\d),(\d)', r'\1\2', ...)`, and finally `json.loads`.  Text is
modelled as `List Char`.  `re.sub` scans left to right with non-overlapping
matches and resumes after the end of each match, which `commaSub` mirrors
exactly. -/

/-- The backquote character, used by the code-fence markers. -/
def backquote : Char := '\x60'

/-- Characters removed by Python `str.strip()` (the ASCII whitespace set). -/
def pyIsSpace (c : Char) : Bool :=
  c == ' ' || c == '\t' || c == '\n' || c == '\r' || c == '\x0b' || c == '\x0c'

/-- Whitespace skipped by Python `json.loads` (strict JSON whitespace). -/
def isJsonWs (c : Char) : Bool :=
  c == ' ' || c == '\t' || c == '\n' || c == '\r'

/-- Python `str.strip()`: drop leading then trailing whitespace. -/
def dropTrailingWs (s : List Char) : List Char :=
  (s.reverse.dropWhile pyIsSpace).reverse

/-- Python `str.strip()` on a character list. -/
def pyStrip (s : List Char) : List Char :=
  dropTrailingWs (s.dropWhile pyIsSpace)

/-- Boolean `str.startswith` on character lists (pattern first). -/
def startsWithL : List Char → List Char → Bool
  | [], _ => true
  | _ :: _, [] => false
  | p :: ps, c :: cs => p == c && startsWithL ps cs

/-- Boolean `str.endswith` on character lists (pattern first). -/
def endsWithL (pat s : List Char) : Bool :=
  startsWithL pat.reverse s.reverse

/-- The leading marker "```json" checked first by `complete_json`. -/
def fenceJson : List Char := ("```json").toList

/-- The plain fence marker "```". -/
def fence3 : List Char := ("```").toList

/-- The three fence-stripping slices of `complete_json`, in source order:
drop a leading "```json", then a leading "```", then a trailing "```". -/
def stripFences (s : List Char) : List Char :=
  let s1 := if startsWithL fenceJson s then s.drop 7 else s
  let s2 := if startsWithL fence3 s1 then s1.drop 3 else s1
  if endsWithL fence3 s2 then s2.take (s2.length - 3) else s2

/-- The `re.sub(r'(\d),(\d)', r'\1\2', s)` pass: on a digit-comma-digit match
the comma is dropped and scanning resumes after the second digit (Python
matches are non-overlapping); otherwise scanning advances one character. -/
def commaSub : List Char → List Char
  | [] => []
  | [a] => [a]
  | [a, b] => [a, b]
  | a :: b :: c :: rest =>
    if a.isDigit && b == ',' && c.isDigit then a :: c :: commaSub rest
    else a :: commaSub (b :: c :: rest)

/-- Whether some adjacent digit-comma-digit triple occurs in the text. -/
def hasDigitCommaDigit : List Char → Bool
  | a :: b :: c :: rest =>
    (a.isDigit && b == ',' && c.isDigit) || hasDigitCommaDigit (b :: c :: rest)
  | _ => false

/-- The full cleaning performed by `complete_json` before `json.loads`:
strip, strip fences, strip again, remove digit-comma-digit commas. -/
def cleanResponse (s : List Char) : List Char :=
  commaSub (pyStrip (stripFences (pyStrip s)))

/-- Parsed JSON values.  Numeric literals keep their source text and string
literals keep the raw (unescaped) characters between the quotes; only parse
success/failure and structural shape matter to the claims, not the decoded
numeric value. -/
inductive Json where
  | jnull : Json
  | jbool : Bool → Json
  | jnum : List Char → Json
  | jstr : List Char → Json
  | jarr : List Json → Json
  | jobj : List (List Char × Json) → Json

/-- Skip strict-JSON whitespace, as `json.loads` does between tokens. -/
def skipWs (s : List Char) : List Char := s.dropWhile isJsonWs

/-- Hexadecimal digit test for `\uXXXX` escapes. -/
def isHexDigit (c : Char) : Bool :=
  c.isDigit || ('a' ≤ c && c ≤ 'f') || ('A' ≤ c && c ≤ 'F')

/-- String-literal body parser (after the opening quote): plain characters
above 0x1F, short escapes, and `\uXXXX` escapes; returns the raw body and the
remainder after the closing quote.  Mirrors Python's strict `json.loads`
string scanner. -/
def parseStringBody : List Char → Option (List Char × List Char)
  | [] => none
  | c :: rest =>
    if c == '"' then some ([], rest)
    else if c == '\\' then
      match rest with
      | [] => none
      | e :: rest2 =>
        if e == 'u' then
          match rest2 with
          | h1 :: h2 :: h3 :: h4 :: rest3 =>
            if isHexDigit h1 && isHexDigit h2 && isHexDigit h3 && isHexDigit h4 then
              (parseStringBody rest3).map fun p => (c :: e :: h1 :: h2 :: h3 :: h4 :: p.1, p.2)
            else none
          | _ => none
        else if e == '"' || e == '\\' || e == '/' || e == 'b' || e == 'f' ||
            e == 'n' || e == 'r' || e == 't' then
          (parseStringBody rest2).map fun p => (c :: e :: p.1, p.2)
        else none
    else if c.toNat < 32 then none
    else (parseStringBody rest).map fun p => (c :: p.1, p.2)

/-- Integer part of a JSON number: `0` or a nonzero digit followed by digits. -/
def parseIntPart : List Char → Option (List Char × List Char)
  | [] => none
  | c :: rest =>
    if c == '0' then some ([c], rest)
    else if c.isDigit then
      some (c :: rest.takeWhile Char.isDigit, rest.dropWhile Char.isDigit)
    else none

/-- Optional fractional part `.digits` of a JSON number. -/
def parseFracPart : List Char → Option (List Char × List Char)
  | [] => some ([], [])
  | c :: rest =>
    if c == '.' then
      match rest.takeWhile Char.isDigit with
      | [] => none
      | d :: ds => some (c :: d :: ds, rest.dropWhile Char.isDigit)
    else some ([], c :: rest)

/-- Optional sign of a JSON exponent. -/
def parseExpSign : List Char → List Char × List Char
  | [] => ([], [])
  | c :: rest => if c == '+' || c == '-' then ([c], rest) else ([], c :: rest)

/-- Optional exponent part `e[+-]digits` of a JSON number. -/
def parseExpPart : List Char → Option (List Char × List Char)
  | [] => some ([], [])
  | e :: rest =>
    if e == 'e' || e == 'E' then
      match (parseExpSign rest).2.takeWhile Char.isDigit with
      | [] => none
      | d :: ds =>
        some (e :: (parseExpSign rest).1 ++ d :: ds, (parseExpSign rest).2.dropWhile Char.isDigit)
    else some ([], e :: rest)

/-- Unsigned JSON number: integer part, optional fraction and exponent. -/
def parseNumTail (cs : List Char) : Option (List Char × List Char) :=
  match parseIntPart cs with
  | none => none
  | some (ip, cs2) =>
    match parseFracPart cs2 with
    | none => none
    | some (fp, cs3) =>
      match parseExpPart cs3 with
      | none => none
      | some (ep, cs4) => some (ip ++ fp ++ ep, cs4)

/-- JSON number literal: optional minus, then the unsigned number; returns
the literal text and the remainder. -/
def parseNumber : List Char → Option (List Char × List Char)
  | [] => none
  | c :: rest =>
    if c == '-' then (parseNumTail rest).map fun p => (c :: p.1, p.2)
    else parseNumTail (c :: rest)

/-- Literal `null` after its leading `n` was inspected. -/
def parseNull : List Char → Option (Json × List Char)
  | a :: b :: c2 :: rest2 =>
    if a == 'u' && b == 'l' && c2 == 'l' then some (Json.jnull, rest2) else none
  | _ => none

/-- Literal `true` after its leading `t` was inspected. -/
def parseTrue : List Char → Option (Json × List Char)
  | a :: b :: c2 :: rest2 =>
    if a == 'r' && b == 'u' && c2 == 'e' then some (Json.jbool true, rest2) else none
  | _ => none

/-- Literal `false` after its leading `f` was inspected. -/
def parseFalse : List Char → Option (Json × List Char)
  | a :: b :: c2 :: d2 :: rest2 =>
    if a == 'a' && b == 'l' && c2 == 's' && d2 == 'e' then some (Json.jbool false, rest2)
    else none
  | _ => none

mutual

/-- Value parser of the `json.loads` model, dispatching on the first
character; `fuel` bounds the nesting depth. -/
def parseValue : Nat → List Char → Option (Json × List Char)
  | 0, _ => none
  | _ + 1, [] => none
  | fuel + 1, c :: rest =>
    if c == '"' then (parseStringBody rest).map fun p => (Json.jstr p.1, p.2)
    else if c == '{' then parseObjBody fuel (skipWs rest)
    else if c == '[' then parseArrBody fuel (skipWs rest)
    else if c == 'n' then parseNull rest
    else if c == 't' then parseTrue rest
    else if c == 'f' then parseFalse rest
    else if c == '-' || c.isDigit then
      (parseNumber (c :: rest)).map fun p => (Json.jnum p.1, p.2)
    else none

/-- Object body after `\x7b` and leading whitespace: empty object or members. -/
def parseObjBody : Nat → List Char → Option (Json × List Char)
  | 0, _ => none
  | _ + 1, [] => none
  | fuel + 1, d :: rest2 =>
    if d == '}' then some (Json.jobj [], rest2)
    else (parseMembers fuel (d :: rest2)).map fun p => (Json.jobj p.1, p.2)

/-- Array body after `[` and leading whitespace: empty array or elements. -/
def parseArrBody : Nat → List Char → Option (Json × List Char)
  | 0, _ => none
  | _ + 1, [] => none
  | fuel + 1, d :: rest2 =>
    if d == ']' then some (Json.jarr [], rest2)
    else (parseElements fuel (d :: rest2)).map fun p => (Json.jarr p.1, p.2)

/-- Array elements (nonempty-array case): value, then `,` and more elements
or the closing `]`. -/
def parseElements : Nat → List Char → Option (List Json × List Char)
  | 0, _ => none
  | fuel + 1, cs =>
    match parseValue fuel cs with
    | none => none
    | some (v, rest) =>
      match skipWs rest with
      | [] => none
      | d :: rest2 =>
        if d == ',' then
          match parseElements fuel (skipWs rest2) with
          | some (vs, rem) => some (v :: vs, rem)
          | none => none
        else if d == ']' then some ([v], rest2)
        else none

/-- Object members (nonempty-object case): quoted key, `:`, value, then `,`
and more members or the closing `\x7d`. -/
def parseMembers : Nat → List Char → Option (List (List Char × Json) × List Char)
  | 0, _ => none
  | fuel + 1, cs =>
    match cs with
    | [] => none
    | q :: rest =>
      if q == '"' then
        match parseStringBody rest with
        | none => none
        | some (key, rest2) =>
          match skipWs rest2 with
          | [] => none
          | d :: rest3 =>
            if d == ':' then
              match parseValue fuel (skipWs rest3) with
              | none => none
              | some (v, rest4) =>
                match skipWs rest4 with
                | [] => none
                | e :: rest5 =>
                  if e == ',' then
                    match parseMembers fuel (skipWs rest5) with
                    | some (fs, rem) => some ((key, v) :: fs, rem)
                    | none => none
                  else if e == '}' then some ([(key, v)], rest5)
                  else none
            else none
      else none

end

/-- Model of Python `json.loads` (without the nonstandard NaN / Infinity
extensions, which the claims never exercise): skip whitespace, parse one
value, require only whitespace to remain.  Every unit of fuel burnt is
preceded by at most three parser layers per consumed character, so
`3 * length + 3` units always suffice. -/
def jsonLoads (s : List Char) : Option Json :=
  match parseValue (3 * s.length + 3) (skipWs s) with
  | some (v, rest) => if skipWs rest = [] then some v else none
  | none => none

/-- `GrokClient.complete_json` after the model response arrived: clean the
text, then parse it; a parse failure raises `GrokAPIError` (here: `.error`
carrying the cleaned text that the code logs, truncated to 500 chars). -/
def complete_json (response : String) : Except String Json :=
  let cleaned := cleanResponse response.toList
  match jsonLoads cleaned with
  | some v => Except.ok v
  | none => Except.error (String.mk (cleaned.take 500))

/-! #### Structural lemmas about the cleaning pipeline -/

/-- A nonempty suffix has the same last element as the whole list. -/
theorem getLast?_of_suffix {l₁ l₂ : List Char} (h : l₁ <:+ l₂) (hne : l₁ ≠ []) :
    l₂.getLast? = l₁.getLast? := by
  obtain ⟨t, rfl⟩ := h
  exact List.getLast?_append_of_ne_nil t hne

/-- The head of a `dropWhile p` result never satisfies `p`. -/
theorem head?_dropWhile_false (p : Char → Bool) :
    ∀ s : List Char, ∀ a, (s.dropWhile p).head? = some a → p a = false := by
  intro s
  induction s with
  | nil => intro a h; simp [List.dropWhile] at h
  | cons b t ih =>
    intro a h
    rw [List.dropWhile_cons] at h
    by_cases hb : p b
    · rw [if_pos hb] at h; exact ih a h
    · rw [if_neg hb] at h
      simp only [List.head?_cons, Option.some.injEq] at h
      subst h
      exact Bool.eq_false_iff.mpr hb

/-- `dropWhile` is the identity when the head does not satisfy `p`. -/
theorem dropWhile_eq_self_of_head (p : Char → Bool) (s : List Char)
    (h : ∀ a, s.head? = some a → p a = false) : s.dropWhile p = s := by
  cases s with
  | nil => rfl
  | cons b t => rw [List.dropWhile_cons]; simp [h b rfl]

/-- Neither end of the list carries Python whitespace. -/
def StrippedP (s : List Char) : Prop :=
  (∀ a, s.head? = some a → pyIsSpace a = false) ∧
  (∀ a, s.getLast? = some a → pyIsSpace a = false)

/-- `str.strip()` output is stripped. -/
theorem pyStrip_stripped (s : List Char) : StrippedP (pyStrip s) := by
  constructor
  · intro a ha
    unfold pyStrip dropTrailingWs at ha
    rw [List.head?_reverse] at ha
    have hy : (s.dropWhile pyIsSpace).reverse.dropWhile pyIsSpace ≠ [] := by
      intro he; rw [he] at ha; simp at ha
    have h2 : (s.dropWhile pyIsSpace).reverse.getLast? = some a :=
      (getLast?_of_suffix (List.dropWhile_suffix pyIsSpace) hy).trans ha
    rw [List.getLast?_reverse] at h2
    exact head?_dropWhile_false _ _ _ h2
  · intro a ha
    unfold pyStrip dropTrailingWs at ha
    rw [List.getLast?_reverse] at ha
    exact head?_dropWhile_false _ _ _ ha

/-- `str.strip()` is the identity on stripped text. -/
theorem pyStrip_eq_self {s : List Char} (h : StrippedP s) : pyStrip s = s := by
  unfold pyStrip dropTrailingWs
  rw [dropWhile_eq_self_of_head _ _ h.1, dropWhile_eq_self_of_head, List.reverse_reverse]
  intro a ha
  rw [List.head?_reverse] at ha
  exact h.2 a ha

/-- The comma pass never changes the first character. -/
theorem commaSub_head? (s : List Char) : (commaSub s).head? = s.head? := by
  match s with
  | [] => simp [commaSub]
  | [a] => simp [commaSub]
  | [a, b] => simp [commaSub]
  | a :: b :: c :: rest =>
    simp only [commaSub]
    split <;> rfl

/-- The comma pass never empties a nonempty list. -/
theorem commaSub_ne_nil {s : List Char} (h : s ≠ []) : commaSub s ≠ [] := by
  intro he
  have := commaSub_head? s
  rw [he] at this
  cases s with
  | nil => exact h rfl
  | cons a t => simp at this

/-- The comma pass never changes the last character. -/
theorem commaSub_getLast? (s : List Char) : (commaSub s).getLast? = s.getLast? := by
  induction s using commaSub.induct with
  | case1 => simp [commaSub]
  | case2 a => simp [commaSub]
  | case3 a b => simp [commaSub]
  | case4 a b c rest hcond ih =>
    simp only [commaSub, if_pos hcond]
    cases rest with
    | nil => simp [commaSub]
    | cons d t =>
      obtain ⟨x, xs, hx⟩ :=
        List.exists_cons_of_ne_nil (commaSub_ne_nil (by simp) : commaSub (d :: t) ≠ [])
      rw [hx]
      simp only [List.getLast?_cons_cons]
      rw [hx] at ih
      simpa using ih
  | case5 a b c rest hcond ih =>
    simp only [commaSub, if_neg hcond]
    obtain ⟨x, xs, hx⟩ :=
      List.exists_cons_of_ne_nil (commaSub_ne_nil (by simp) : commaSub (b :: c :: rest) ≠ [])
    rw [hx]
    simp only [List.getLast?_cons_cons]
    rw [hx] at ih
    simpa using ih

/-- Without any digit-comma-digit triple the comma pass is the identity. -/
theorem commaSub_eq_self : ∀ {s : List Char}, hasDigitCommaDigit s = false → commaSub s = s := by
  intro s
  induction s using commaSub.induct with
  | case1 => intro _; simp [commaSub]
  | case2 a => intro _; simp [commaSub]
  | case3 a b => intro _; simp [commaSub]
  | case4 a b c rest hcond ih =>
    intro h
    simp only [hasDigitCommaDigit, hcond, Bool.true_or] at h
    simp at h
  | case5 a b c rest hcond ih =>
    intro h
    simp only [hasDigitCommaDigit, Bool.or_eq_false_iff] at h
    simp only [commaSub, if_neg hcond]
    rw [ih h.2]

/-- JSON whitespace is Python whitespace. -/
theorem pyIsSpace_of_isJsonWs {a : Char} (h : isJsonWs a = true) : pyIsSpace a = true := by
  simp only [isJsonWs, Bool.or_eq_true, beq_iff_eq] at h
  rcases h with ((h | h) | h) | h <;> subst h <;> rfl

/-- A pattern starting with a character the text does not start with never
matches at the start. -/
theorem startsWithL_cons_false {p0 : Char} {ps s : List Char}
    (h : ∀ a, s.head? = some a → a ≠ p0) : startsWithL (p0 :: ps) s = false := by
  cases s with
  | nil => rfl
  | cons b t =>
    have hb : (p0 == b) = false := beq_eq_false_iff_ne.mpr (Ne.symm (h b rfl))
    simp [startsWithL, hb]

/-- The "```json" marker as an explicit character list. -/
theorem fenceJson_eq :
    fenceJson = backquote :: backquote :: backquote :: 'j' :: 's' :: 'o' :: 'n' :: [] := rfl

/-- The "```" marker as an explicit character list. -/
theorem fence3_eq : fence3 = backquote :: backquote :: backquote :: [] := rfl

/-- Fence stripping is the identity when neither end is a backquote. -/
theorem stripFences_eq_self {s : List Char}
    (hh : ∀ a, s.head? = some a → a ≠ backquote)
    (hl : ∀ a, s.getLast? = some a → a ≠ backquote) : stripFences s = s := by
  have e1 : startsWithL fenceJson s = false := by
    rw [fenceJson_eq]; exact startsWithL_cons_false hh
  have e2 : startsWithL fence3 s = false := by
    rw [fence3_eq]; exact startsWithL_cons_false hh
  have e3 : endsWithL fence3 s = false := by
    unfold endsWithL
    rw [fence3_eq]
    apply startsWithL_cons_false
    intro a ha
    rw [List.head?_reverse] at ha
    exact hl a ha
  simp [stripFences, e1, e2, e3]

/-- The cleaned response is stripped. -/
theorem cleanResponse_stripped (s : List Char) : StrippedP (cleanResponse s) := by
  unfold cleanResponse
  have h := pyStrip_stripped (stripFences (pyStrip s))
  constructor
  · intro a ha; rw [commaSub_head?] at ha; exact h.1 a ha
  · intro a ha; rw [commaSub_getLast?] at ha; exact h.2 a ha

/-- On stripped, fence-free, comma-free text the whole cleaning pass is the
identity. -/
theorem cleanResponse_eq_self {s : List Char} (hs : StrippedP s)
    (hh : ∀ a, s.head? = some a → a ≠ backquote)
    (hl : ∀ a, s.getLast? = some a → a ≠ backquote)
    (hd : hasDigitCommaDigit s = false) : cleanResponse s = s := by
  unfold cleanResponse
  rw [pyStrip_eq_self hs, stripFences_eq_self hh hl, pyStrip_eq_self hs, commaSub_eq_self hd]

/-! #### Consumption lemmas for the `json.loads` model

A successful parse leaves a remainder that is a suffix of its input, and the
character consumed immediately before the remainder is a closing quote, a
closing bracket, a digit or a keyword letter — never a backquote.  These facts
drive the idempotence analysis of the cleaning pass. -/

/-- Dropping leading whitespace yields a suffix. -/
theorem skipWs_suffix (s : List Char) : skipWs s <:+ s :=
  List.dropWhile_suffix isJsonWs

/-- A suffix without its head character is still a suffix. -/
theorem suffix_of_cons_suffix {a : Char} {t cs : List Char} (h : (a :: t) <:+ cs) :
    t <:+ cs :=
  (List.suffix_cons a t).trans h

/-- A successful string-body parse consumed everything up to a closing
quote: the remainder is preceded by `"`. -/
theorem parseStringBody_quote :
    ∀ cs : List Char, ∀ content rest, parseStringBody cs = some (content, rest) →
      ('"' :: rest) <:+ cs := by
  intro cs
  induction cs using parseStringBody.induct with
  | case1 => intro content rest h; rw [parseStringBody.eq_def] at h; simp at h
  | case2 e rest2 he =>
    intro content rest h
    rw [parseStringBody.eq_def] at h
    simp only [he, if_true, Option.some.injEq, Prod.mk.injEq] at h
    obtain ⟨-, rfl⟩ := h
    have he' : e = '"' := beq_iff_eq.mp he
    subst he'
    exact List.suffix_rfl
  | case3 e h1 h2 =>
    intro content rest h
    rw [parseStringBody.eq_def] at h
    simp [h1, h2] at h
  | case4 e h1 h2 e1 he1 c1 c2 c3 c4 rest3 hhex ih =>
    intro content rest h
    rw [parseStringBody.eq_def] at h
    simp only [h1, h2, he1, hhex, if_true, if_false, ite_true, ite_false,
      eq_false, not_false_eq_true] at h
    cases hps : parseStringBody rest3 with
    | none => rw [hps] at h; simp at h
    | some p =>
      rw [hps] at h
      simp at h
      obtain ⟨-, hr⟩ := h
      subst hr
      have := ih p.1 p.2 (by rw [hps])
      exact this.trans ((List.suffix_cons _ _).trans ((List.suffix_cons _ _).trans
        ((List.suffix_cons _ _).trans ((List.suffix_cons _ _).trans
        ((List.suffix_cons _ _).trans (List.suffix_cons _ _))))))
  | case5 e h1 h2 e1 he1 c1 c2 c3 c4 rest3 hhex =>
    intro content rest h
    rw [parseStringBody.eq_def] at h
    simp [h1, h2, he1, hhex] at h
  | case6 e h1 h2 e1 rest2 he1 hshape =>
    intro content rest h
    rw [parseStringBody.eq_def] at h
    simp only [h1, h2, he1] at h
    rcases rest2 with _ | ⟨x1, _ | ⟨x2, _ | ⟨x3, _ | ⟨x4, r⟩⟩⟩⟩
    · simp at h
    · simp at h
    · simp at h
    · simp at h
    · exact absurd rfl fun hc => hshape x1 x2 x3 x4 r hc
  | case7 e h1 h2 e1 rest2 he1 hesc ih =>
    intro content rest h
    rw [parseStringBody.eq_def] at h
    simp only [h1, h2, he1, hesc, if_true, if_false, eq_false, not_false_eq_true] at h
    cases hps : parseStringBody rest2 with
    | none => rw [hps] at h; simp at h
    | some p =>
      rw [hps] at h
      simp at h
      obtain ⟨-, hr⟩ := h
      subst hr
      have := ih p.1 p.2 (by rw [hps])
      exact this.trans ((List.suffix_cons _ _).trans (List.suffix_cons _ _))
  | case8 e h1 h2 e1 rest2 he1 hesc =>
    intro content rest h
    rw [parseStringBody.eq_def] at h
    simp [h1, h2, he1, hesc] at h
  | case9 e rest2 h1 h2 hctl =>
    intro content rest h
    rw [parseStringBody.eq_def] at h
    simp [h1, h2, hctl] at h
  | case10 e rest2 h1 h2 hctl ih =>
    intro content rest h
    rw [parseStringBody.eq_def] at h
    simp only [h1, h2, hctl, if_true, if_false, eq_false, not_false_eq_true] at h
    cases hps : parseStringBody rest2 with
    | none => rw [hps] at h; simp at h
    | some p =>
      rw [hps] at h
      simp at h
      obtain ⟨-, hr⟩ := h
      subst hr
      have := ih p.1 p.2 (by rw [hps])
      exact this.trans (List.suffix_cons _ _)

/-- If a digit-run split leaves a nonempty run, the last digit of the run
immediately precedes the `dropWhile` remainder. -/
theorem dropWhile_digit_last {r : List Char} (hne : r.takeWhile Char.isDigit ≠ []) :
    ∃ d, d.isDigit = true ∧ (d :: r.dropWhile Char.isDigit) <:+ r := by
  rcases List.eq_nil_or_concat (r.takeWhile Char.isDigit) with htw | ⟨ys, d, htw⟩
  · exact absurd htw hne
  · have hsplit : r.takeWhile Char.isDigit ++ r.dropWhile Char.isDigit = r :=
      List.takeWhile_append_dropWhile Char.isDigit r
    rw [htw] at hsplit
    have hdig : d.isDigit = true := List.mem_takeWhile_imp (by rw [htw]; simp)
    exact ⟨d, hdig, ⟨ys, by simpa using hsplit⟩⟩

/-- A successful integer-part parse ends on a digit. -/
theorem parseIntPart_digit {cs ip rest : List Char} (h : parseIntPart cs = some (ip, rest)) :
    ∃ d, d.isDigit = true ∧ (d :: rest) <:+ cs := by
  cases cs with
  | nil => simp [parseIntPart] at h
  | cons c r =>
    simp only [parseIntPart] at h
    by_cases h0 : (c == '0') = true
    · rw [if_pos h0] at h
      simp only [Option.some.injEq, Prod.mk.injEq] at h
      obtain ⟨-, rfl⟩ := h
      have hc : c = '0' := beq_iff_eq.mp h0
      exact ⟨c, by rw [hc]; rfl, List.suffix_rfl⟩
    · rw [if_neg h0] at h
      by_cases hd : c.isDigit = true
      · rw [if_pos hd] at h
        simp only [Option.some.injEq, Prod.mk.injEq] at h
        obtain ⟨-, rfl⟩ := h
        by_cases htw : r.takeWhile Char.isDigit = []
        · have hdw : r.dropWhile Char.isDigit = r := by
            have hsplit : r.takeWhile Char.isDigit ++ r.dropWhile Char.isDigit = r :=
              List.takeWhile_append_dropWhile Char.isDigit r
            rw [htw] at hsplit
            simpa using hsplit
          rw [hdw]
          exact ⟨c, hd, List.suffix_rfl⟩
        · obtain ⟨d, hdig, hsfx⟩ := dropWhile_digit_last htw
          exact ⟨d, hdig, hsfx.trans (List.suffix_cons c r)⟩
      · rw [if_neg hd] at h
        simp at h

/-- A successful fractional-part parse either consumes nothing or ends on a
digit. -/
theorem parseFracPart_cases {cs fp rest : List Char} (h : parseFracPart cs = some (fp, rest)) :
    rest = cs ∨ ∃ d, d.isDigit = true ∧ (d :: rest) <:+ cs := by
  cases cs with
  | nil =>
    left
    simp only [parseFracPart, Option.some.injEq, Prod.mk.injEq] at h
    exact h.2.symm
  | cons c r =>
    simp only [parseFracPart] at h
    by_cases hdot : (c == '.') = true
    · rw [if_pos hdot] at h
      cases htw : r.takeWhile Char.isDigit with
      | nil => rw [htw] at h; simp at h
      | cons d ds =>
        rw [htw] at h
        simp only [Option.some.injEq, Prod.mk.injEq] at h
        obtain ⟨-, rfl⟩ := h
        right
        obtain ⟨d', hd', hsfx⟩ := dropWhile_digit_last (by rw [htw]; simp)
        exact ⟨d', hd', hsfx.trans (List.suffix_cons c r)⟩
    · rw [if_neg hdot] at h
      left
      simp only [Option.some.injEq, Prod.mk.injEq] at h
      exact h.2.symm

/-- The exponent sign consumes at most one character. -/
theorem parseExpSign_suffix (cs : List Char) : (parseExpSign cs).2 <:+ cs := by
  cases cs with
  | nil => simp [parseExpSign]
  | cons c r =>
    by_cases hc : (c == '+' || c == '-') = true
    · simp only [parseExpSign, if_pos hc]
      exact List.suffix_cons c r
    · simp only [parseExpSign, if_neg hc]
      exact List.suffix_rfl

/-- A successful exponent-part parse either consumes nothing or ends on a
digit. -/
theorem parseExpPart_cases {cs ep rest : List Char} (h : parseExpPart cs = some (ep, rest)) :
    rest = cs ∨ ∃ d, d.isDigit = true ∧ (d :: rest) <:+ cs := by
  cases cs with
  | nil =>
    left
    simp only [parseExpPart, Option.some.injEq, Prod.mk.injEq] at h
    exact h.2.symm
  | cons e r =>
    simp only [parseExpPart] at h
    by_cases he : (e == 'e' || e == 'E') = true
    · rw [if_pos he] at h
      cases htw : (parseExpSign r).2.takeWhile Char.isDigit with
      | nil => rw [htw] at h; simp at h
      | cons d ds =>
        rw [htw] at h
        simp only [Option.some.injEq, Prod.mk.injEq] at h
        obtain ⟨-, rfl⟩ := h
        right
        obtain ⟨d', hd', hsfx⟩ := dropWhile_digit_last (by rw [htw]; simp)
        exact ⟨d', hd', hsfx.trans ((parseExpSign_suffix r).trans (List.suffix_cons e r))⟩
    · rw [if_neg he] at h
      left
      simp only [Option.some.injEq, Prod.mk.injEq] at h
      exact h.2.symm

/-- A successful unsigned-number parse ends on a digit. -/
theorem parseNumTail_digit {cs ds rest : List Char} (h : parseNumTail cs = some (ds, rest)) :
    ∃ d, d.isDigit = true ∧ (d :: rest) <:+ cs := by
  unfold parseNumTail at h
  cases hip : parseIntPart cs with
  | none => rw [hip] at h; simp at h
  | some p =>
    obtain ⟨ip, cs2⟩ := p
    rw [hip] at h
    simp only at h
    cases hfp : parseFracPart cs2 with
    | none => rw [hfp] at h; simp at h
    | some q =>
      obtain ⟨fp, cs3⟩ := q
      rw [hfp] at h
      simp only at h
      cases hep : parseExpPart cs3 with
      | none => rw [hep] at h; simp at h
      | some w =>
        obtain ⟨ep, cs4⟩ := w
        rw [hep] at h
        simp only [Option.some.injEq, Prod.mk.injEq] at h
        obtain ⟨-, rfl⟩ := h
        obtain ⟨di, hdi, hsi⟩ := parseIntPart_digit hip
        have hcs2 : cs2 <:+ cs := suffix_of_cons_suffix hsi
        rcases parseExpPart_cases hep with hrest | ⟨de, hde, hse⟩
        · subst hrest
          rcases parseFracPart_cases hfp with hrest2 | ⟨df, hdf, hsf⟩
          · subst hrest2
            exact ⟨di, hdi, hsi⟩
          · exact ⟨df, hdf, hsf.trans hcs2⟩
        · have hcs3 : cs3 <:+ cs := by
            rcases parseFracPart_cases hfp with hrest2 | ⟨df, hdf, hsf⟩
            · subst hrest2; exact hcs2
            · exact (suffix_of_cons_suffix hsf).trans hcs2
          exact ⟨de, hde, hse.trans hcs3⟩

/-- A successful number parse ends on a digit. -/
theorem parseNumber_digit {cs ds rest : List Char} (h : parseNumber cs = some (ds, rest)) :
    ∃ d, d.isDigit = true ∧ (d :: rest) <:+ cs := by
  cases cs with
  | nil => simp [parseNumber] at h
  | cons c r =>
    simp only [parseNumber] at h
    by_cases hm : (c == '-') = true
    · rw [if_pos hm, Option.map_eq_some'] at h
      obtain ⟨p, hp, heq⟩ := h
      simp only [Prod.mk.injEq] at heq
      obtain ⟨-, rfl⟩ := heq
      have hpt : parseNumTail r = some p := by rw [hp]
      obtain ⟨d, hd, hsfx⟩ := parseNumTail_digit hpt
      exact ⟨d, hd, hsfx.trans (List.suffix_cons c r)⟩
    · rw [if_neg hm] at h
      exact parseNumTail_digit h

/-- A `null` parse ends on the letter l. -/
theorem parseNull_last {rest : List Char} {out : Json × List Char}
    (h : parseNull rest = some out) : ('l' :: out.2) <:+ rest := by
  rcases rest with _ | ⟨a, _ | ⟨b, _ | ⟨c2, rest2⟩⟩⟩ <;> simp [parseNull] at h
  rcases h with ⟨⟨⟨-, -⟩, hc⟩, rfl⟩
  subst hc
  exact ⟨[a, b], rfl⟩

/-- A `true` parse ends on the letter e. -/
theorem parseTrue_last {rest : List Char} {out : Json × List Char}
    (h : parseTrue rest = some out) : ('e' :: out.2) <:+ rest := by
  rcases rest with _ | ⟨a, _ | ⟨b, _ | ⟨c2, rest2⟩⟩⟩ <;> simp [parseTrue] at h
  rcases h with ⟨⟨⟨-, -⟩, hc⟩, rfl⟩
  subst hc
  exact ⟨[a, b], rfl⟩

/-- A `false` parse ends on the letter e. -/
theorem parseFalse_last {rest : List Char} {out : Json × List Char}
    (h : parseFalse rest = some out) : ('e' :: out.2) <:+ rest := by
  rcases rest with _ | ⟨a, _ | ⟨b, _ | ⟨c2, _ | ⟨d2, rest2⟩⟩⟩⟩ <;> simp [parseFalse] at h
  rcases h with ⟨⟨⟨⟨-, -⟩, -⟩, hc⟩, rfl⟩
  subst hc
  exact ⟨[a, b, c2], rfl⟩

/-- Consumption bundle for the mutual parsers: every remainder is a suffix of
the input, and a bracketed parse consumed its closing bracket immediately
before the remainder. -/
theorem parse_consumption :
    ∀ fuel : Nat,
      (∀ cs out, parseObjBody fuel cs = some out → ('}' :: out.2) <:+ cs) ∧
      (∀ cs out, parseArrBody fuel cs = some out → (']' :: out.2) <:+ cs) ∧
      (∀ cs out, parseValue fuel cs = some out → out.2 <:+ cs) ∧
      (∀ cs out, parseElements fuel cs = some out → (']' :: out.2) <:+ cs) ∧
      (∀ cs out, parseMembers fuel cs = some out → ('}' :: out.2) <:+ cs) := by
  intro fuel
  induction fuel with
  | zero =>
    refine ⟨?_, ?_, ?_, ?_, ?_⟩ <;> intro cs out h
    · rw [parseObjBody.eq_def] at h; simp at h
    · rw [parseArrBody.eq_def] at h; simp at h
    · rw [parseValue.eq_def] at h; simp at h
    · rw [parseElements.eq_def] at h; simp at h
    · rw [parseMembers.eq_def] at h; simp at h
  | succ fuel ih =>
    obtain ⟨ihObj, ihArr, ihVal, ihElem, ihMem⟩ := ih
    have hObj : ∀ cs out, parseObjBody (fuel + 1) cs = some out → ('}' :: out.2) <:+ cs := by
      intro cs out h
      obtain ⟨o1, o2⟩ := out
      rw [parseObjBody.eq_def] at h
      cases cs with
      | nil => simp at h
      | cons d rest2 =>
        by_cases hd : (d == '}') = true
        · simp only [hd, if_true] at h
          simp at h
          obtain ⟨-, rfl⟩ := h
          have : d = '}' := beq_iff_eq.mp hd
          subst this
          exact List.suffix_rfl
        · cases hpm : parseMembers fuel (d :: rest2) with
          | none => simp [hd, hpm] at h
          | some mp =>
            simp [hd, hpm] at h
            obtain ⟨-, rfl⟩ := h
            exact ihMem _ _ hpm
    have hArr : ∀ cs out, parseArrBody (fuel + 1) cs = some out → (']' :: out.2) <:+ cs := by
      intro cs out h
      obtain ⟨o1, o2⟩ := out
      rw [parseArrBody.eq_def] at h
      cases cs with
      | nil => simp at h
      | cons d rest2 =>
        by_cases hd : (d == ']') = true
        · simp only [hd, if_true] at h
          simp at h
          obtain ⟨-, rfl⟩ := h
          have : d = ']' := beq_iff_eq.mp hd
          subst this
          exact List.suffix_rfl
        · cases hpe : parseElements fuel (d :: rest2) with
          | none => simp [hd, hpe] at h
          | some ep =>
            simp [hd, hpe] at h
            obtain ⟨-, rfl⟩ := h
            exact ihElem _ _ hpe
    have hVal : ∀ cs out, parseValue (fuel + 1) cs = some out → out.2 <:+ cs := by
      intro cs out h
      obtain ⟨o1, o2⟩ := out
      rw [parseValue.eq_def] at h
      cases cs with
      | nil => simp at h
      | cons c rest =>
        by_cases hq : (c == '"') = true
        · simp only [hq, if_true] at h
          cases hsb : parseStringBody rest with
          | none => simp [hsb] at h
          | some p =>
            simp [hsb] at h
            obtain ⟨-, rfl⟩ := h
            exact (suffix_of_cons_suffix (parseStringBody_quote rest p.1 p.2
              (by rw [hsb]))).trans (List.suffix_cons c rest)
        · by_cases hob : (c == '{') = true
          · simp only [hq, hob, if_true, if_false, eq_false, not_false_eq_true] at h
            simp only [Bool.false_eq_true, if_false] at h
            have := ihObj _ _ h
            exact (suffix_of_cons_suffix this).trans
              ((skipWs_suffix rest).trans (List.suffix_cons c rest))
          · by_cases hab : (c == '[') = true
            · simp only [hq, hob, hab, Bool.false_eq_true, if_false, if_true] at h
              have := ihArr _ _ h
              exact (suffix_of_cons_suffix this).trans
                ((skipWs_suffix rest).trans (List.suffix_cons c rest))
            · by_cases hn : (c == 'n') = true
              · simp only [hq, hob, hab, hn, Bool.false_eq_true, if_false, if_true] at h
                exact (suffix_of_cons_suffix (parseNull_last h)).trans (List.suffix_cons c rest)
              · by_cases ht : (c == 't') = true
                · simp only [hq, hob, hab, hn, ht, Bool.false_eq_true, if_false, if_true] at h
                  exact (suffix_of_cons_suffix (parseTrue_last h)).trans (List.suffix_cons c rest)
                · by_cases hf : (c == 'f') = true
                  · simp only [hq, hob, hab, hn, ht, hf, Bool.false_eq_true, if_false,
                      if_true] at h
                    exact (suffix_of_cons_suffix (parseFalse_last h)).trans
                      (List.suffix_cons c rest)
                  · by_cases hnum : (c == '-' || c.isDigit) = true
                    · simp only [hq, hob, hab, hn, ht, hf, hnum, Bool.false_eq_true, if_false,
                        if_true] at h
                      cases hpn : parseNumber (c :: rest) with
                      | none => rw [hpn] at h; simp at h
                      | some p =>
                        rw [hpn] at h
                        simp at h
                        obtain ⟨-, rfl⟩ := h
                        obtain ⟨d, -, hsfx⟩ := parseNumber_digit hpn
                        exact suffix_of_cons_suffix hsfx
                    · simp [hq, hob, hab, hn, ht, hf, hnum] at h
    have hElem : ∀ cs out, parseElements (fuel + 1) cs = some out → (']' :: out.2) <:+ cs := by
      intro cs out h
      obtain ⟨o1, o2⟩ := out
      rw [parseElements.eq_def] at h
      cases hpv : parseValue fuel cs with
      | none => simp [hpv] at h
      | some vp =>
        obtain ⟨v, rest⟩ := vp
        have hrest : rest <:+ cs := ihVal _ _ hpv
        cases hsw : skipWs rest with
        | nil => simp [hpv, hsw] at h
        | cons d rest2 =>
          have hrest2 : rest2 <:+ cs :=
            (suffix_of_cons_suffix (hsw ▸ skipWs_suffix rest)).trans hrest
          by_cases hd : (d == ',') = true
          · cases hpe : parseElements fuel (skipWs rest2) with
            | none => simp [hpv, hsw, hd, hpe] at h
            | some ep =>
              simp [hpv, hsw, hd, hpe] at h
              obtain ⟨-, rfl⟩ := h
              exact (ihElem _ _ hpe).trans ((skipWs_suffix rest2).trans hrest2)
          · by_cases hd2 : (d == ']') = true
            · simp [hpv, hsw, hd, hd2] at h
              obtain ⟨-, rfl⟩ := h
              have hdd : d = ']' := beq_iff_eq.mp hd2
              subst hdd
              exact (hsw ▸ skipWs_suffix rest).trans hrest
            · simp [hpv, hsw, hd, hd2] at h
    have hMem : ∀ cs out, parseMembers (fuel + 1) cs = some out → ('}' :: out.2) <:+ cs := by
      intro cs out h
      obtain ⟨o1, o2⟩ := out
      rw [parseMembers.eq_def] at h
      cases cs with
      | nil => simp at h
      | cons q rest =>
        by_cases hq : (q == '"') = true
        · cases hsb : parseStringBody rest with
          | none => simp [hq, hsb] at h
          | some kp =>
            obtain ⟨key, rest2⟩ := kp
            have hrest2 : rest2 <:+ q :: rest :=
              (suffix_of_cons_suffix (parseStringBody_quote rest key rest2 hsb)).trans
                (List.suffix_cons q rest)
            cases hsw : skipWs rest2 with
            | nil => simp [hq, hsb, hsw] at h
            | cons d rest3 =>
              have hrest3 : rest3 <:+ q :: rest :=
                (suffix_of_cons_suffix (hsw ▸ skipWs_suffix rest2)).trans hrest2
              by_cases hd : (d == ':') = true
              · cases hpv : parseValue fuel (skipWs rest3) with
                | none => simp [hq, hsb, hsw, hd, hpv] at h
                | some vp =>
                  obtain ⟨v, rest4⟩ := vp
                  have hrest4 : rest4 <:+ q :: rest :=
                    ((ihVal _ _ hpv).trans (skipWs_suffix rest3)).trans hrest3
                  cases hsw2 : skipWs rest4 with
                  | nil => simp [hq, hsb, hsw, hd, hpv, hsw2] at h
                  | cons e rest5 =>
                    have hrest5 : rest5 <:+ q :: rest :=
                      (suffix_of_cons_suffix (hsw2 ▸ skipWs_suffix rest4)).trans hrest4
                    by_cases he : (e == ',') = true
                    · cases hpm : parseMembers fuel (skipWs rest5) with
                      | none => simp [hq, hsb, hsw, hd, hpv, hsw2, he, hpm] at h
                      | some mp =>
                        simp [hq, hsb, hsw, hd, hpv, hsw2, he, hpm] at h
                        obtain ⟨-, rfl⟩ := h
                        exact (ihMem _ _ hpm).trans ((skipWs_suffix rest5).trans hrest5)
                    · by_cases he2 : (e == '}') = true
                      · simp [hq, hsb, hsw, hd, hpv, hsw2, he, he2] at h
                        obtain ⟨-, rfl⟩ := h
                        have hee : e = '}' := beq_iff_eq.mp he2
                        subst hee
                        exact (hsw2 ▸ skipWs_suffix rest4).trans hrest4
                      · simp [hq, hsb, hsw, hd, hpv, hsw2, he, he2] at h
              · simp [hq, hsb, hsw, hd] at h
        · simp [hq] at h
    exact ⟨hObj, hArr, hVal, hElem, hMem⟩

/-- The value parser fails immediately on a leading backquote: a backquote
starts no JSON value. -/
theorem parseValue_backquote (fuel : Nat) (t : List Char) :
    parseValue fuel (backquote :: t) = none := by
  cases fuel with
  | zero => rw [parseValue.eq_def]
  | succ fuel =>
    rw [parseValue.eq_def]
    simp only [show (backquote == '"') = false from rfl,
      show (backquote == '{') = false from rfl, show (backquote == '[') = false from rfl,
      show (backquote == 'n') = false from rfl, show (backquote == 't') = false from rfl,
      show (backquote == 'f') = false from rfl,
      show (backquote == '-' || backquote.isDigit) = false from rfl,
      Bool.false_eq_true, if_false]

/-- The value parser fails on empty input. -/
theorem parseValue_nil (fuel : Nat) : parseValue fuel [] = none := by
  cases fuel <;> rw [parseValue.eq_def]

/-- The character a successful value parse consumed immediately before its
remainder is a closing quote or bracket, a keyword letter, or a digit — never
a backquote. -/
theorem parseValue_last {fuel : Nat} {cs : List Char} {out : Json × List Char}
    (h : parseValue fuel cs = some out) :
    ∃ g, g ≠ backquote ∧ (g :: out.2) <:+ cs := by
  cases fuel with
  | zero => rw [parseValue.eq_def] at h; simp at h
  | succ fuel =>
    obtain ⟨o1, o2⟩ := out
    rw [parseValue.eq_def] at h
    cases cs with
    | nil => simp at h
    | cons c rest =>
      by_cases hq : (c == '"') = true
      · simp only [hq, if_true] at h
        cases hsb : parseStringBody rest with
        | none => simp [hsb] at h
        | some p =>
          simp [hsb] at h
          obtain ⟨-, rfl⟩ := h
          refine ⟨'"', by decide, ?_⟩
          exact (parseStringBody_quote rest p.1 p.2 (by rw [hsb])).trans (List.suffix_cons c rest)
      · by_cases hob : (c == '{') = true
        · simp only [hq, hob, Bool.false_eq_true, if_false, if_true] at h
          refine ⟨'}', by decide, ?_⟩
          exact ((parse_consumption fuel).1 _ _ h).trans
            ((skipWs_suffix rest).trans (List.suffix_cons c rest))
        · by_cases hab : (c == '[') = true
          · simp only [hq, hob, hab, Bool.false_eq_true, if_false, if_true] at h
            refine ⟨']', by decide, ?_⟩
            exact ((parse_consumption fuel).2.1 _ _ h).trans
              ((skipWs_suffix rest).trans (List.suffix_cons c rest))
          · by_cases hn : (c == 'n') = true
            · simp only [hq, hob, hab, hn, Bool.false_eq_true, if_false, if_true] at h
              exact ⟨'l', by decide, (parseNull_last h).trans (List.suffix_cons c rest)⟩
            · by_cases ht : (c == 't') = true
              · simp only [hq, hob, hab, hn, ht, Bool.false_eq_true, if_false, if_true] at h
                exact ⟨'e', by decide, (parseTrue_last h).trans (List.suffix_cons c rest)⟩
              · by_cases hf : (c == 'f') = true
                · simp only [hq, hob, hab, hn, ht, hf, Bool.false_eq_true, if_false,
                    if_true] at h
                  exact ⟨'e', by decide, (parseFalse_last h).trans (List.suffix_cons c rest)⟩
                · by_cases hnum : (c == '-' || c.isDigit) = true
                  · simp only [hq, hob, hab, hn, ht, hf, hnum, Bool.false_eq_true, if_false,
                      if_true] at h
                    cases hpn : parseNumber (c :: rest) with
                    | none => rw [hpn] at h; simp at h
                    | some p =>
                      rw [hpn] at h
                      simp at h
                      obtain ⟨-, rfl⟩ := h
                      obtain ⟨d, hd, hsfx⟩ := parseNumber_digit hpn
                      refine ⟨d, ?_, hsfx⟩
                      intro hdb
                      rw [hdb] at hd
                      exact absurd hd (by decide)
                  · simp [hq, hob, hab, hn, ht, hf, hnum] at h

/-- On stripped text, a successful `jsonLoads` run forbids a backquote at
either end: the dispatch rejects a leading one and the final consumed
character is never one. -/
theorem jsonLoads_no_backquote_ends {c : List Char} {v : Json}
    (hs : StrippedP c) (h : jsonLoads c = some v) :
    (∀ a, c.head? = some a → a ≠ backquote) ∧
    (∀ a, c.getLast? = some a → a ≠ backquote) := by
  have hsk : skipWs c = c := by
    cases c with
    | nil => rfl
    | cons a t =>
      have ha : pyIsSpace a = false := hs.1 a rfl
      have haj : isJsonWs a = false := by
        cases hj : isJsonWs a
        · rfl
        · rw [pyIsSpace_of_isJsonWs hj] at ha; cases ha
      simp [skipWs, List.dropWhile_cons, haj]
  unfold jsonLoads at h
  rw [hsk] at h
  cases hpv : parseValue (3 * c.length + 3) c with
  | none => rw [hpv] at h; simp at h
  | some out =>
    rw [hpv] at h
    simp only at h
    by_cases hre : skipWs out.2 = []
    · have hrest : out.2 = [] := by
        cases hr2 : out.2 with
        | nil => rfl
        | cons x xs =>
          exfalso
          have hws : ∀ a ∈ out.2, isJsonWs a = true := by
            have := List.dropWhile_eq_nil_iff.mp hre
            simpa [skipWs] using this
          have hsfx : out.2 <:+ c := (parse_consumption _).2.2.1 _ _ hpv
          have hlast : c.getLast? = out.2.getLast? :=
            getLast?_of_suffix hsfx (by rw [hr2]; simp)
          have hne : out.2 ≠ [] := by rw [hr2]; simp
          have hl := List.getLast?_eq_getLast out.2 hne
          have hmem := List.getLast_mem hne
          have hwl : isJsonWs (out.2.getLast hne) = true := hws _ hmem
          have hpl : pyIsSpace (out.2.getLast hne) = false :=
            hs.2 _ (hlast.trans hl)
          rw [pyIsSpace_of_isJsonWs hwl] at hpl
          cases hpl
      obtain ⟨g, hg, hgs⟩ := parseValue_last hpv
      rw [hrest] at hgs
      obtain ⟨ys, hys⟩ := hgs
      constructor
      · intro a ha hab
        subst hab
        obtain ⟨t, rfl⟩ : ∃ t, c = backquote :: t := by
          cases c with
          | nil => simp at ha
          | cons b t =>
            simp only [List.head?_cons, Option.some.injEq] at ha
            exact ⟨t, by rw [ha]⟩
        rw [parseValue_backquote] at hpv
        cases hpv
      · intro a ha hab
        subst hab
        rw [← hys] at ha
        rw [List.getLast?_concat] at ha
        simp only [Option.some.injEq] at ha
        exact hg ha
    · rw [if_neg hre] at h
      cases h

/-- C3 counterexample: for x = "[1,2,3]" the one-pass cleaned form "[12,3]"
parses as JSON (the non-overlapping regex scan removed only the first comma),
yet a second cleaning pass still changes it, to "[123]" — so repair is not
idempotent on every input whose one-pass cleaned form parses. -/
theorem repair_not_idempotent :
    jsonLoads (cleanResponse ("[1,2,3]").toList)
      = some (Json.jarr [Json.jnum ['1', '2'], Json.jnum ['3']]) ∧
    cleanResponse (cleanResponse ("[1,2,3]").toList) ≠ cleanResponse ("[1,2,3]").toList :=
  ⟨rfl, by decide⟩

/-- C3 amended: the repair pass is idempotent on every text whose one-pass
cleaned form parses as JSON and retains no digit-comma-digit triple (the
triple can survive one pass only because the regex scan is non-overlapping,
as in "[1,2,3]" → "[12,3]"): cleaning the already-cleaned text changes
nothing. -/
theorem repair_idempotent (x : List Char) (v : Json)
    (hp : jsonLoads (cleanResponse x) = some v)
    (hd : hasDigitCommaDigit (cleanResponse x) = false) :
    cleanResponse (cleanResponse x) = cleanResponse x := by
  have hs := cleanResponse_stripped x
  obtain ⟨hh, hl⟩ := jsonLoads_no_backquote_ends hs hp
  exact cleanResponse_eq_self hs hh hl hd

/-- C3 witness: the amended statement at the fenced response
" ```json \x7b"a": 1\x7d ``` ", whose cleaned form is `\x7b"a": 1\x7d`. -/
theorem repair_idempotent_witness :
    jsonLoads (cleanResponse (" ```json \x7b\"a\": 1\x7d ``` ").toList)
      = some (Json.jobj [(['a'], Json.jnum ['1'])]) ∧
    hasDigitCommaDigit (cleanResponse (" ```json \x7b\"a\": 1\x7d ``` ").toList) = false ∧
    cleanResponse (cleanResponse (" ```json \x7b\"a\": 1\x7d ``` ").toList)
      = cleanResponse (" ```json \x7b\"a\": 1\x7d ``` ").toList :=
  ⟨rfl, by decide,
    repair_idempotent (" ```json \x7b\"a\": 1\x7d ``` ").toList
      (Json.jobj [(['a'], Json.jnum ['1'])]) rfl (by decide)⟩

/-- C4 counterexample: the regex pass is not quote-aware — in
`\x7b"s": "1,2"\x7d` the comma sits between digits inside a quoted string
value, which the claim says must survive, yet cleaning turns the value into
"12". -/
theorem comma_removal_in_string :
    jsonLoads (("\x7b\"s\": \"1,2\"\x7d").toList)
      = some (Json.jobj [(['s'], Json.jstr ['1', ',', '2'])]) ∧
    cleanResponse (("\x7b\"s\": \"1,2\"\x7d").toList) = ("\x7b\"s\": \"12\"\x7d").toList :=
  ⟨rfl, by decide⟩

/-- C4 amended: comma removal applies to every digit-comma-digit triple,
inside or outside quotes: `\x7b"v": 1,250,000\x7d` parses to the object with
v = 1250000; the quoted value "a,b" survives because its comma has no digit
neighbours; the quoted value "1,2" is changed to "12". -/
theorem comma_removal_numeric :
    jsonLoads (cleanResponse ("\x7b\"v\": 1,250,000\x7d").toList)
      = some (Json.jobj [(['v'], Json.jnum ['1', '2', '5', '0', '0', '0', '0'])]) ∧
    cleanResponse (("\x7b\"s\": \"a,b\"\x7d").toList) = ("\x7b\"s\": \"a,b\"\x7d").toList ∧
    cleanResponse (("\x7b\"s\": \"1,2\"\x7d").toList) = ("\x7b\"s\": \"12\"\x7d").toList :=
  ⟨rfl, by decide, by decide⟩

/-! ### Resilient external-call layer

`TwitterAPIClient._make_request` and `GrokClient._make_request` share the same
recursion: issue the request; on HTTP 429 retry while `retry_count <
max_retries` (else fail as rate-limited), on timeout retry under the same cap
(else fail as timeout); 401/403 fail immediately as auth errors, Twitter's 404
as not-found, anything else as a server error, transport failures as network
errors.  Responses are modelled as a function from the attempt index; sleeps
and backoff delays have no observable effect here and are not modelled.
`remaining` stands for `max_retries - retry_count`, so the source's guard
`retry_count < max_retries` is `remaining > 0`. -/

/-- What one HTTP attempt produced, as the exception handlers see it. -/
inductive HttpAttempt where
  | ok (body : String)
  | http (status : Nat)
  | timeout
  | network

/-- Terminal failure kinds surfaced by the call layer. -/
inductive CallError where
  | rateLimited
  | notFound
  | authError
  | apiError (status : Nat)
  | timeoutError
  | networkError
deriving DecidableEq

/-- `TwitterAPIClient._make_request`: result and number of requests issued. -/
def twitterRequest (resp : Nat → HttpAttempt) : Nat → Nat → Except CallError String × Nat
  | remaining, attempt =>
    match resp attempt with
    | .ok body => (.ok body, 1)
    | .http status =>
      if status = 429 then
        match remaining with
        | 0 => (.error .rateLimited, 1)
        | r + 1 =>
          let p := twitterRequest resp r (attempt + 1)
          (p.1, p.2 + 1)
      else if status = 404 then (.error .notFound, 1)
      else if status = 401 || status = 403 then (.error .authError, 1)
      else (.error (.apiError status), 1)
    | .timeout =>
      match remaining with
      | 0 => (.error .timeoutError, 1)
      | r + 1 =>
        let p := twitterRequest resp r (attempt + 1)
        (p.1, p.2 + 1)
    | .network => (.error .networkError, 1)

/-- `GrokClient._make_request`: identical control flow except that there is no
dedicated 404 branch (it falls into the generic API-error case). -/
def grokRequest (resp : Nat → HttpAttempt) : Nat → Nat → Except CallError String × Nat
  | remaining, attempt =>
    match resp attempt with
    | .ok body => (.ok body, 1)
    | .http status =>
      if status = 429 then
        match remaining with
        | 0 => (.error .rateLimited, 1)
        | r + 1 =>
          let p := grokRequest resp r (attempt + 1)
          (p.1, p.2 + 1)
      else if status = 401 || status = 403 then (.error .authError, 1)
      else (.error (.apiError status), 1)
    | .timeout =>
      match remaining with
      | 0 => (.error .timeoutError, 1)
      | r + 1 =>
        let p := grokRequest resp r (attempt + 1)
        (p.1, p.2 + 1)
    | .network => (.error .networkError, 1)

/-- Both clients construct requests with `max_retries = 3`. -/
def max_retries : Nat := 3

/-- Under all-429 responses the Twitter client exhausts its retries and fails
as rate-limited after remaining + 1 requests. -/
theorem twitterRequest_all429 (resp : Nat → HttpAttempt) :
    ∀ r a, (∀ i, a ≤ i → i ≤ a + r → resp i = .http 429) →
      twitterRequest resp r a = (.error .rateLimited, r + 1) := by
  intro r
  induction r with
  | zero =>
    intro a h
    rw [twitterRequest]
    rw [h a le_rfl (by omega)]
    simp
  | succ r ih =>
    intro a h
    rw [twitterRequest]
    rw [h a le_rfl (by omega)]
    rw [ih (a + 1) (fun i h1 h2 => h i (by omega) (by omega))]
    simp

/-- Under all-timeout responses the Twitter client exhausts its retries and
fails as timeout after remaining + 1 requests. -/
theorem twitterRequest_allTimeout (resp : Nat → HttpAttempt) :
    ∀ r a, (∀ i, a ≤ i → i ≤ a + r → resp i = .timeout) →
      twitterRequest resp r a = (.error .timeoutError, r + 1) := by
  intro r
  induction r with
  | zero =>
    intro a h
    rw [twitterRequest, h a le_rfl (by omega)]
  | succ r ih =>
    intro a h
    rw [twitterRequest, h a le_rfl (by omega)]
    simp only
    rw [ih (a + 1) (fun i h1 h2 => h i (by omega) (by omega))]

/-- Grok analogue of `twitterRequest_all429`. -/
theorem grokRequest_all429 (resp : Nat → HttpAttempt) :
    ∀ r a, (∀ i, a ≤ i → i ≤ a + r → resp i = .http 429) →
      grokRequest resp r a = (.error .rateLimited, r + 1) := by
  intro r
  induction r with
  | zero =>
    intro a h
    rw [grokRequest, h a le_rfl (by omega)]
    simp
  | succ r ih =>
    intro a h
    rw [grokRequest, h a le_rfl (by omega)]
    rw [ih (a + 1) (fun i h1 h2 => h i (by omega) (by omega))]
    simp

/-- Grok analogue of `twitterRequest_allTimeout`. -/
theorem grokRequest_allTimeout (resp : Nat → HttpAttempt) :
    ∀ r a, (∀ i, a ≤ i → i ≤ a + r → resp i = .timeout) →
      grokRequest resp r a = (.error .timeoutError, r + 1) := by
  intro r
  induction r with
  | zero =>
    intro a h
    rw [grokRequest, h a le_rfl (by omega)]
  | succ r ih =>
    intro a h
    rw [grokRequest, h a le_rfl (by omega)]
    simp only
    rw [ih (a + 1) (fun i h1 h2 => h i (by omega) (by omega))]

/-- For every response sequence whatsoever, the number of requests issued is
bounded by remaining + 1: no unbounded retry loop exists. -/
theorem twitterRequest_attempt_bound (resp : Nat → HttpAttempt) :
    ∀ r a, (twitterRequest resp r a).2 ≤ r + 1 := by
  intro r
  induction r with
  | zero =>
    intro a
    rw [twitterRequest]
    cases resp a with
    | ok body => exact Nat.le.refl
    | http status =>
      dsimp only
      split_ifs <;> simp
    | timeout => exact Nat.le.refl
    | network => exact Nat.le.refl
  | succ r ih =>
    intro a
    rw [twitterRequest]
    cases resp a with
    | ok body => simp
    | http status =>
      by_cases h429 : status = 429
      · simp only [h429, if_pos rfl]
        have := ih (a + 1)
        exact Nat.succ_le_succ this
      · simp only [if_neg h429]
        split_ifs <;> simp
    | timeout =>
      have := ih (a + 1)
      exact Nat.succ_le_succ this
    | network => simp

/-- Grok analogue of `twitterRequest_attempt_bound`. -/
theorem grokRequest_attempt_bound (resp : Nat → HttpAttempt) :
    ∀ r a, (grokRequest resp r a).2 ≤ r + 1 := by
  intro r
  induction r with
  | zero =>
    intro a
    rw [grokRequest]
    cases resp a with
    | ok body => exact Nat.le.refl
    | http status =>
      dsimp only
      split_ifs <;> simp
    | timeout => exact Nat.le.refl
    | network => exact Nat.le.refl
  | succ r ih =>
    intro a
    rw [grokRequest]
    cases resp a with
    | ok body => simp
    | http status =>
      by_cases h429 : status = 429
      · simp only [h429, if_pos rfl]
        have := ih (a + 1)
        exact Nat.succ_le_succ this
      · simp only [if_neg h429]
        split_ifs <;> simp
    | timeout =>
      have := ih (a + 1)
      exact Nat.succ_le_succ this
    | network => simp

/-- C6: with more consecutive 429 responses than `max_retries = 3`, both
clients stop after exactly 3 retries beyond the initial request (4 requests in
total) with a terminal RateLimited failure; the same 3-retry cap applies to
timeouts; and for every response sequence neither client ever issues more than
`max_retries + 1` requests. -/
theorem retry_cap (respA respB : Nat → HttpAttempt)
    (hA : ∀ i, i ≤ max_retries → respA i = .http 429)
    (hB : ∀ i, i ≤ max_retries → respB i = .timeout) :
    (twitterRequest respA max_retries 0 = (.error .rateLimited, max_retries + 1) ∧
     grokRequest respA max_retries 0 = (.error .rateLimited, max_retries + 1)) ∧
    (twitterRequest respB max_retries 0 = (.error .timeoutError, max_retries + 1) ∧
     grokRequest respB max_retries 0 = (.error .timeoutError, max_retries + 1)) ∧
    (∀ resp attempt, (twitterRequest resp max_retries attempt).2 ≤ max_retries + 1 ∧
      (grokRequest resp max_retries attempt).2 ≤ max_retries + 1) :=
  ⟨⟨twitterRequest_all429 respA max_retries 0 (fun i _ h2 => hA i (by omega)),
    grokRequest_all429 respA max_retries 0 (fun i _ h2 => hA i (by omega))⟩,
   ⟨twitterRequest_allTimeout respB max_retries 0 (fun i _ h2 => hB i (by omega)),
    grokRequest_allTimeout respB max_retries 0 (fun i _ h2 => hB i (by omega))⟩,
   fun resp attempt => ⟨twitterRequest_attempt_bound resp max_retries attempt,
    grokRequest_attempt_bound resp max_retries attempt⟩⟩

/-- C6 witness: the cap theorem at the constant-429 and constant-timeout
response sequences. -/
theorem retry_cap_witness :
    (∀ i, i ≤ max_retries → (fun _ => HttpAttempt.http 429) i = .http 429) ∧
    (∀ i, i ≤ max_retries → (fun _ => HttpAttempt.timeout) i = .timeout) ∧
    twitterRequest (fun _ => HttpAttempt.http 429) max_retries 0
      = (.error .rateLimited, max_retries + 1) ∧
    grokRequest (fun _ => HttpAttempt.timeout) max_retries 0
      = (.error .timeoutError, max_retries + 1) :=
  ⟨fun _ _ => rfl, fun _ _ => rfl,
    (retry_cap (fun _ => HttpAttempt.http 429) (fun _ => HttpAttempt.timeout)
      (fun _ _ => rfl) (fun _ _ => rfl)).1.1,
    (retry_cap (fun _ => HttpAttempt.http 429) (fun _ => HttpAttempt.timeout)
      (fun _ _ => rfl) (fun _ _ => rfl)).2.1.2⟩

/-! ### Tweet cache (`CacheManager`)

The `tweets_cache` table is a list of rows; `datetime` values are integers in
an arbitrary fixed unit, with the TTL expressed in the same unit (the code
uses `timedelta(hours=ttl_hours)`).  `get_cached_tweets` filters to rows of
the normalized handle with `fetched_at > now - ttl`, orders by `fetched_at`
descending and takes the first; it issues no delete.  For equal `fetched_at`
values SQL row order is unspecified; the model prefers the earlier stored
row, which none of the claims depend on. -/

/-- Handle normalization `handle.lstrip('@').lower()` (ASCII lowercasing). -/
def normalizeHandle (s : List Char) : List Char :=
  (s.dropWhile (· == '@')).map Char.toLower

/-- One stored `tweets_cache` row. -/
structure TweetsCacheRow where
  x_handle : List Char
  tweet_data : String
  fetched_at : Int

/-- The row the `ORDER BY fetched_at DESC ... first()` query returns: the
entry with the greatest `fetched_at` (earlier row preferred on ties). -/
def pickLatest : List TweetsCacheRow → Option TweetsCacheRow
  | [] => none
  | r :: rs =>
    match pickLatest rs with
    | none => some r
    | some r' => if r.fetched_at < r'.fetched_at then some r' else some r

/-- `CacheManager.get_cached_tweets`: the returned payload (`none` = MISS)
and the table afterwards (unchanged — `get` never deletes). -/
def get_cached_tweets (rows : List TweetsCacheRow) (handle : List Char)
    (now ttl : Int) : Option String × List TweetsCacheRow :=
  let hN := normalizeHandle handle
  let fresh := rows.filter fun r => r.x_handle == hN && decide (now - ttl < r.fetched_at)
  ((pickLatest fresh).map (·.tweet_data), rows)

/-- A picked row belongs to the list. -/
theorem pickLatest_mem : ∀ {l : List TweetsCacheRow} {r : TweetsCacheRow},
    pickLatest l = some r → r ∈ l := by
  intro l
  induction l with
  | nil => intro r h; simp [pickLatest] at h
  | cons a t ih =>
    intro r h
    rw [pickLatest] at h
    cases hp : pickLatest t with
    | none =>
      rw [hp] at h
      dsimp only at h
      simp only [Option.some.injEq] at h
      subst h
      exact List.mem_cons_self a t
    | some r2 =>
      rw [hp] at h
      dsimp only at h
      split_ifs at h with hlt <;> simp only [Option.some.injEq] at h <;> subst h
      · exact List.mem_cons_of_mem a (ih hp)
      · exact List.mem_cons_self a t

/-- `pickLatest` yields `none` only on the empty list. -/
theorem pickLatest_none : ∀ {l : List TweetsCacheRow},
    pickLatest l = none ↔ l = [] := by
  intro l
  cases l with
  | nil => simp [pickLatest]
  | cons a t =>
    rw [pickLatest]
    cases hp : pickLatest t with
    | none => dsimp only; simp
    | some r2 => dsimp only; split_ifs <;> simp

/-- A picked row has the maximal `fetched_at`. -/
theorem pickLatest_max : ∀ {l : List TweetsCacheRow} {r : TweetsCacheRow},
    pickLatest l = some r → ∀ x ∈ l, x.fetched_at ≤ r.fetched_at := by
  intro l
  induction l with
  | nil => intro r h; simp [pickLatest] at h
  | cons a t ih =>
    intro r h x hx
    rw [pickLatest] at h
    cases hp : pickLatest t with
    | none =>
      rw [hp] at h
      dsimp only at h
      simp only [Option.some.injEq] at h
      subst h
      have ht : t = [] := pickLatest_none.mp hp
      subst ht
      simp at hx
      subst hx
      exact le_refl _
    | some rmax =>
      rw [hp] at h
      dsimp only at h
      split_ifs at h with hlt <;> simp only [Option.some.injEq] at h <;> subst h
      · rcases List.mem_cons.mp hx with rfl | hmem
        · exact le_of_lt hlt
        · exact ih hp x hmem
      · rcases List.mem_cons.mp hx with rfl | hmem
        · exact le_refl _
        · have := ih hp x hmem
          omega

/-- C7: the tweet-cache read returns the payload of the most recent stored
entry for the handle whose age is strictly below the TTL and reports a MISS
when no such entry exists; an entry written at time t is returned at
`t + ttl - ε` and is a MISS at `t + ttl + ε` for every ε > 0; and `get`
leaves the stored rows untouched (expired entries are ignored, not
deleted). -/
theorem cache_get_policy (rows : List TweetsCacheRow) (handle : List Char)
    (row : TweetsCacheRow) (now ttl t ε : Int)
    (hh : row.x_handle = normalizeHandle handle) (ht : row.fetched_at = t)
    (hε : 0 < ε) :
    (get_cached_tweets rows handle now ttl).2 = rows ∧
    ((get_cached_tweets rows handle now ttl).1 = none ↔
      ∀ r ∈ rows, r.x_handle = normalizeHandle handle → now - ttl < r.fetched_at → False) ∧
    (∀ d, (get_cached_tweets rows handle now ttl).1 = some d →
      ∃ r ∈ rows, r.x_handle = normalizeHandle handle ∧ now - ttl < r.fetched_at ∧
        r.tweet_data = d ∧
        ∀ r' ∈ rows, r'.x_handle = normalizeHandle handle →
          now - ttl < r'.fetched_at → r'.fetched_at ≤ r.fetched_at) ∧
    (get_cached_tweets [row] handle (t + ttl - ε) ttl).1 = some row.tweet_data ∧
    (get_cached_tweets [row] handle (t + ttl + ε) ttl).1 = none := by
  refine ⟨rfl, ?_, ?_, ?_, ?_⟩
  · unfold get_cached_tweets
    simp only [Option.map_eq_none']
    rw [pickLatest_none, List.filter_eq_nil_iff]
    constructor
    · intro hf r hr hmatch hfresh
      exact absurd (by simp [hmatch, hfresh]) (hf r hr)
    · intro hf r hr
      simp only [Bool.and_eq_true, beq_iff_eq, decide_eq_true_eq, not_and]
      intro hmatch hfresh
      exact hf r hr hmatch hfresh
  · intro d hd
    unfold get_cached_tweets at hd
    simp only [Option.map_eq_some'] at hd
    obtain ⟨r, hr, hrd⟩ := hd
    have hmem := pickLatest_mem hr
    rw [List.mem_filter] at hmem
    obtain ⟨hrows, hpred⟩ := hmem
    simp only [Bool.and_eq_true, beq_iff_eq, decide_eq_true_eq] at hpred
    refine ⟨r, hrows, hpred.1, hpred.2, hrd, ?_⟩
    intro r' hr' hmatch' hfresh'
    exact pickLatest_max hr r' (List.mem_filter.mpr ⟨hr', by simp [hmatch', hfresh']⟩)
  · unfold get_cached_tweets
    have hcond : t + ttl - ε - ttl < row.fetched_at := by rw [ht]; omega
    simp [hh, hcond, pickLatest]
  · unfold get_cached_tweets
    have hcond : ¬(t + ttl + ε - ttl < row.fetched_at) := by rw [ht]; omega
    simp [hcond, pickLatest]

/-- C7 witness: the policy theorem at a one-row store. -/
theorem cache_get_policy_witness :
    (⟨['u'], "tw", 100⟩ : TweetsCacheRow).x_handle = normalizeHandle ['u'] ∧
    (⟨['u'], "tw", 100⟩ : TweetsCacheRow).fetched_at = 100 ∧ (0 : Int) < 1 ∧
    (get_cached_tweets [⟨['u'], "tw", 100⟩] ['u'] (100 + 50 - 1) 50).1 = some "tw" ∧
    (get_cached_tweets [⟨['u'], "tw", 100⟩] ['u'] (100 + 50 + 1) 50).1 = none :=
  ⟨by decide, rfl, by decide,
    (cache_get_policy [⟨['u'], "tw", 100⟩] ['u'] ⟨['u'], "tw", 100⟩ 0 50 100 1
      (by decide) rfl (by decide)).2.2.2.1,
    (cache_get_policy [⟨['u'], "tw", 100⟩] ['u'] ⟨['u'], "tw", 100⟩ 0 50 100 1
      (by decide) rfl (by decide)).2.2.2.2⟩

/-! ### Peer pool (`PeerPoolManager`)

The `peer_pools` table is a list of rows.  The schema (`db/models.py`) has
no unique constraint on (pool_key, handle) — only single-column indexes —
and `db/connection.py` builds every session with
`sessionmaker(autocommit=False, autoflush=False, ...)`.  With autoflush
disabled, the existence query inside `add_peers_to_pool`'s loop runs
against the rows already committed to the database when the call started:
objects staged by `session.add` earlier in the same batch are not flushed
and stay invisible to it.  The model therefore threads two lists through
the loop — `base`, the committed rows (a hit mutates its row in place: the
identity map hands back the same object, and the key columns are never
modified, so later lookups in the batch still find it), and `pending`, the
staged inserts, which no lookup consults.  The single `session.commit()` at
the end flushes the staged rows after the updates.  Consequently a batch
that repeats a handle absent from the pool stages two inserts and the
commit stores both, the schema offering no constraint to reject the
duplicate.  Growth rates are floats in the source; the claims only copy
and compare them, so they are carried as integers.  When the caller omits
`pool_key` the source derives it from the peers' average follower count;
the claims always pass it explicitly, and the model takes it as an
argument. -/

/-- One stored `peer_pools` row. -/
structure PeerPoolRow where
  handle : List Char
  pool_key : String
  niche : String
  follower_count : Nat
  growth_rate : Int
  is_valid : Bool
  last_validated : Int
  times_used : Nat
deriving DecidableEq

/-- One peer dict from `peer_matcher` as consumed by `add_peers_to_pool`:
`handle`, `basic_metrics['followers_count']`,
`growth_velocity['estimated_30d_growth']`. -/
structure PeerInput where
  handle : List Char
  followers_count : Nat
  estimated_30d_growth : Int
deriving DecidableEq

/-- The `(pool_key, handle)` row test used by every lookup. -/
def rowKeyPred (key : String) (h : List Char) (r : PeerPoolRow) : Bool :=
  r.pool_key == key && r.handle == h

/-- Mutate the row `.first()` returned, leaving the rest untouched. -/
def modifyFirst (p : PeerPoolRow → Bool) (f : PeerPoolRow → PeerPoolRow) :
    List PeerPoolRow → List PeerPoolRow
  | [] => []
  | r :: rest => if p r then f r :: rest else r :: modifyFirst p f rest

/-- The update path of the upsert: refresh metrics and revalidate. -/
def refreshRow (fo : Nat) (gr now : Int) (r : PeerPoolRow) : PeerPoolRow :=
  { r with
    follower_count := fo
    growth_rate := gr
    last_validated := now
    is_valid := true }

/-- One loop iteration of `add_peers_to_pool`: the existence query sees only
the committed rows `base` (autoflush is off, so the staged inserts in
`pending` are invisible to it); a hit refreshes that row in place, a miss
stages a new row with `times_used = 0`.  Returns the committed rows, the
staged inserts and the added-count increment. -/
def addOnePeer (base pending : List PeerPoolRow) (niche key : String)
    (p : PeerInput) (now : Int) : List PeerPoolRow × List PeerPoolRow × Nat :=
  if base.any (rowKeyPred key p.handle) then
    (modifyFirst (rowKeyPred key p.handle)
      (refreshRow p.followers_count p.estimated_30d_growth now) base, pending, 0)
  else
    (base, pending ++ [⟨p.handle, key, niche, p.followers_count,
      p.estimated_30d_growth, true, now, 0⟩], 1)

/-- The peer loop of `add_peers_to_pool`: fold `addOnePeer` over the batch,
threading the committed rows and the staged inserts separately. -/
def add_peers_loop (base pending : List PeerPoolRow) (peers : List PeerInput)
    (niche key : String) (now : Int) :
    List PeerPoolRow × List PeerPoolRow × Nat :=
  match peers with
  | [] => (base, pending, 0)
  | p :: rest =>
    let step := addOnePeer base pending niche key p now
    let tail := add_peers_loop step.1 step.2.1 rest niche key now
    (tail.1, tail.2.1, step.2.2 + tail.2.2)

/-- `PeerPoolManager.add_peers_to_pool` with an explicit pool key: rows after
the commit and the number of peers newly added.  An empty batch returns
immediately (`if not peers: return 0`); otherwise the loop runs with no
staged inserts yet and the final `session.commit()` appends the staged rows
after the (possibly updated) committed ones. -/
def add_peers_to_pool (rows : List PeerPoolRow) (peers : List PeerInput)
    (niche key : String) (now : Int) : List PeerPoolRow × Nat :=
  match peers with
  | [] => (rows, 0)
  | p :: rest =>
    let res := add_peers_loop rows [] (p :: rest) niche key now
    (res.1 ++ res.2.1, res.2.2)

/-- `PeerPoolManager.increment_usage`: bump `times_used` of each listed
handle's row in the pool (missing handles are skipped). -/
def increment_usage (rows : List PeerPoolRow) (handles : List (List Char))
    (key : String) : List PeerPoolRow :=
  match handles with
  | [] => rows
  | h :: rest =>
    increment_usage
      (modifyFirst (rowKeyPred key h) (fun r => { r with times_used := r.times_used + 1 }) rows)
      rest key

/-- `PeerPoolManager.mark_invalid`: soft-delete one row. -/
def mark_invalid (rows : List PeerPoolRow) (h : List Char) (key : String) :
    List PeerPoolRow :=
  modifyFirst (rowKeyPred key h) (fun r => { r with is_valid := false }) rows

/-- `PeerPoolManager.cleanup_stale_peers`: physically delete rows with
`last_validated < threshold`; returns kept rows and deleted count. -/
def cleanup_stale_peers (rows : List PeerPoolRow) (threshold : Int) :
    List PeerPoolRow × Nat :=
  let kept := rows.filter fun r => !decide (r.last_validated < threshold)
  (kept, rows.length - kept.length)

/-- `PeerPoolManager.cleanup_invalid_peers`: physically delete rows marked
invalid. -/
def cleanup_invalid_peers (rows : List PeerPoolRow) : List PeerPoolRow × Nat :=
  let kept := rows.filter fun r => r.is_valid
  (kept, rows.length - kept.length)

/-- The per-(poolKey, handle) uniqueness invariant. -/
def UniquePool (rows : List PeerPoolRow) : Prop :=
  ∀ key h, (rows.filter (rowKeyPred key h)).length ≤ 1

/-- `modifyFirst` with a key-preserving mutation keeps every key-filter
length. -/
theorem modifyFirst_filter_length (p pred2 : PeerPoolRow → Bool)
    (f : PeerPoolRow → PeerPoolRow) (hf : ∀ r, pred2 (f r) = pred2 r) :
    ∀ rows, ((modifyFirst p f rows).filter pred2).length = (rows.filter pred2).length := by
  intro rows
  induction rows with
  | nil => rfl
  | cons r rest ih =>
    rw [modifyFirst]
    split_ifs with hp
    · simp [List.filter_cons, hf r]
      split_ifs <;> simp
    · simp [List.filter_cons]
      split_ifs <;> simp [ih]

/-- `modifyFirst` along its own predicate rewrites exactly the first
matching row of the filtered view. -/
theorem modifyFirst_filter_self (p : PeerPoolRow → Bool)
    (f : PeerPoolRow → PeerPoolRow) (hf : ∀ r, p (f r) = p r) :
    ∀ rows, (modifyFirst p f rows).filter p =
      match rows.filter p with
      | [] => []
      | r :: rest => f r :: rest := by
  intro rows
  induction rows with
  | nil => rfl
  | cons r rest ih =>
    rw [modifyFirst]
    split_ifs with hp
    · simp [List.filter_cons, hf r, hp]
    · simp [List.filter_cons, hp, ih]

/-- A no-match pool filters to the empty list. -/
theorem filter_eq_nil_of_not_any {p : PeerPoolRow → Bool} {rows : List PeerPoolRow}
    (h : ¬ rows.any p = true) : rows.filter p = [] := by
  rw [List.filter_eq_nil_iff]
  intro a ha hpa
  exact h (List.any_eq_true.mpr ⟨a, ha, hpa⟩)

/-- The refresh mutation never changes the row's key fields. -/
theorem refreshRow_keyPred (key : String) (h : List Char) (fo : Nat) (gr now : Int)
    (r : PeerPoolRow) : rowKeyPred key h (refreshRow fo gr now r) = rowKeyPred key h r := rfl

/-- A single-peer batch reduces to one plain upsert step on the pool. -/
theorem add_peers_single (rows : List PeerPoolRow) (niche key : String)
    (p : PeerInput) (now : Int) :
    add_peers_to_pool rows [p] niche key now =
      if rows.any (rowKeyPred key p.handle) then
        (modifyFirst (rowKeyPred key p.handle)
          (refreshRow p.followers_count p.estimated_30d_growth now) rows, 0)
      else (rows ++ [⟨p.handle, key, niche, p.followers_count,
        p.estimated_30d_growth, true, now, 0⟩], 1) := by
  simp only [add_peers_to_pool, add_peers_loop, addOnePeer]
  split_ifs with hany <;> simp

/-- One single-peer call keeps every key-filter length at most 1 and brings
the touched key's filter length to exactly 1. -/
theorem add_single_unique {rows : List PeerPoolRow} (hinv : UniquePool rows)
    (niche key : String) (p : PeerInput) (now : Int) :
    UniquePool (add_peers_to_pool rows [p] niche key now).1 ∧
    ((add_peers_to_pool rows [p] niche key now).1.filter (rowKeyPred key p.handle)).length = 1 := by
  rw [add_peers_single]
  split_ifs with hany
  · constructor
    · intro k2 h2
      dsimp only
      rw [modifyFirst_filter_length (rowKeyPred key p.handle) (rowKeyPred k2 h2)
        (refreshRow p.followers_count p.estimated_30d_growth now) (fun r => rfl)]
      exact hinv k2 h2
    · dsimp only
      rw [modifyFirst_filter_length (rowKeyPred key p.handle) (rowKeyPred key p.handle)
        (refreshRow p.followers_count p.estimated_30d_growth now) (fun r => rfl)]
      obtain ⟨a, ha, hpa⟩ := List.any_eq_true.mp hany
      have hle := hinv key p.handle
      have hpos : 0 < (rows.filter (rowKeyPred key p.handle)).length := by
        have : a ∈ rows.filter (rowKeyPred key p.handle) := List.mem_filter.mpr ⟨ha, hpa⟩
        exact List.length_pos.mpr fun he => by rw [he] at this; cases this
      omega
  · have hnil := filter_eq_nil_of_not_any hany
    constructor
    · intro k2 h2
      rw [List.filter_append, List.length_append]
      by_cases hp2 : rowKeyPred k2 h2
          ⟨p.handle, key, niche, p.followers_count, p.estimated_30d_growth, true, now, 0⟩ = true
      · have hkk : key = k2 ∧ p.handle = h2 := by
          simpa [rowKeyPred] using hp2
        obtain ⟨rfl, rfl⟩ := hkk
        rw [hnil]
        simp [hp2]
      · simp [List.filter_cons, hp2]
        exact hinv k2 h2
    · rw [List.filter_append, hnil]
      simp [List.filter_cons, rowKeyPred]

/-- C8 helper: the loop preserves uniqueness of committed-plus-staged rows
as long as the remaining peers collide with no staged insert and carry
pairwise distinct handles. -/
theorem add_peers_loop_unique (key : String) (peers : List PeerInput) :
    ∀ base pending : List PeerPoolRow, ∀ niche : String, ∀ now : Int,
      UniquePool (base ++ pending) →
      (∀ q ∈ peers, ∀ r ∈ pending, rowKeyPred key q.handle r = false) →
      (peers.map PeerInput.handle).Nodup →
      UniquePool ((add_peers_loop base pending peers niche key now).1 ++
        (add_peers_loop base pending peers niche key now).2.1) := by
  induction peers with
  | nil =>
    intro base pending niche now hinv _ _
    exact hinv
  | cons p rest ih =>
    intro base pending niche now hinv hdisj hnodup
    rw [List.map_cons, List.nodup_cons] at hnodup
    rw [add_peers_loop]
    dsimp only
    by_cases hany : base.any (rowKeyPred key p.handle) = true
    · simp only [addOnePeer, if_pos hany]
      refine ih _ _ niche now ?_ ?_ hnodup.2
      · intro k2 h2
        rw [List.filter_append, List.length_append,
          modifyFirst_filter_length (rowKeyPred key p.handle) (rowKeyPred k2 h2)
            (refreshRow p.followers_count p.estimated_30d_growth now) (fun r => rfl)]
        have h0 := hinv k2 h2
        rw [List.filter_append, List.length_append] at h0
        exact h0
      · intro q hq r hr
        exact hdisj q (List.mem_cons_of_mem p hq) r hr
    · simp only [addOnePeer, if_neg hany]
      refine ih _ _ niche now ?_ ?_ hnodup.2
      · intro k2 h2
        rw [← List.append_assoc, List.filter_append, List.length_append]
        by_cases hp2 : rowKeyPred k2 h2 ⟨p.handle, key, niche, p.followers_count,
            p.estimated_30d_growth, true, now, 0⟩ = true
        · have hkk : key = k2 ∧ p.handle = h2 := by
            simpa [rowKeyPred] using hp2
          obtain ⟨rfl, rfl⟩ := hkk
          have hb : base.filter (rowKeyPred key p.handle) = [] :=
            filter_eq_nil_of_not_any hany
          have hpend : pending.filter (rowKeyPred key p.handle) = [] := by
            rw [List.filter_eq_nil_iff]
            intro a ha hpa
            rw [hdisj p (List.mem_cons_self p rest) a ha] at hpa
            cases hpa
          rw [List.filter_append, hb, hpend]
          simp [List.filter_cons, hp2]
        · have h1 : (([⟨p.handle, key, niche, p.followers_count,
              p.estimated_30d_growth, true, now, 0⟩] : List PeerPoolRow).filter
              (rowKeyPred k2 h2)).length = 0 := by
            simp [List.filter_cons, hp2]
          rw [h1]
          have h0 := hinv k2 h2
          omega
      · intro q hq r hr
        rcases List.mem_append.mp hr with hr1 | hr2
        · exact hdisj q (List.mem_cons_of_mem p hq) r hr1
        · have hrnew : r = ⟨p.handle, key, niche, p.followers_count,
              p.estimated_30d_growth, true, now, 0⟩ := by
            simpa using hr2
          subst hrnew
          have hne : q.handle ≠ p.handle := by
            intro he
            exact hnodup.1 (he ▸ List.mem_map_of_mem PeerInput.handle hq)
          have hb : (p.handle == q.handle) = false :=
            beq_eq_false_iff_ne.mpr (Ne.symm hne)
          simp [rowKeyPred, hb]

/-- C8 helper: an upsert batch whose handles are pairwise distinct preserves
uniqueness.  (A batch that repeats an absent handle does not: see the
counterexample below.) -/
theorem add_peers_unique (key : String) (peers : List PeerInput)
    (hnodup : (peers.map PeerInput.handle).Nodup) (rows : List PeerPoolRow)
    (hinv : UniquePool rows) (niche : String) (now : Int) :
    UniquePool (add_peers_to_pool rows peers niche key now).1 := by
  cases peers with
  | nil => exact hinv
  | cons p rest =>
    have hbase : UniquePool (rows ++ ([] : List PeerPoolRow)) := by
      rw [List.append_nil]
      exact hinv
    have hdisj : ∀ q ∈ p :: rest, ∀ r ∈ ([] : List PeerPoolRow),
        rowKeyPred key q.handle r = false := by
      intro q hq r hr
      cases hr
    exact add_peers_loop_unique key (p :: rest) rows [] niche now hbase hdisj hnodup

/-- One single-peer call leaves exactly one row for the touched key, carrying
the fresh metrics; when the key was absent the row is brand new with
`times_used = 0`. -/
theorem add_single_filter_self {rows : List PeerPoolRow} (hinv : UniquePool rows)
    (niche key : String) (p : PeerInput) (now : Int) :
    ∃ r, (add_peers_to_pool rows [p] niche key now).1.filter (rowKeyPred key p.handle) = [r] ∧
      r.handle = p.handle ∧ r.pool_key = key ∧
      r.follower_count = p.followers_count ∧ r.growth_rate = p.estimated_30d_growth ∧
      r.last_validated = now ∧ r.is_valid = true ∧
      (rows.filter (rowKeyPred key p.handle) = [] → r.times_used = 0) := by
  rw [add_peers_single]
  split_ifs with hany
  · dsimp only
    rw [modifyFirst_filter_self (rowKeyPred key p.handle)
      (refreshRow p.followers_count p.estimated_30d_growth now) (fun r => rfl)]
    obtain ⟨a, ha, hpa⟩ := List.any_eq_true.mp hany
    have hmem : a ∈ rows.filter (rowKeyPred key p.handle) := List.mem_filter.mpr ⟨ha, hpa⟩
    cases hfil : rows.filter (rowKeyPred key p.handle) with
    | nil => rw [hfil] at hmem; cases hmem
    | cons r0 rest =>
      have hlen := hinv key p.handle
      rw [hfil] at hlen
      simp only [List.length_cons] at hlen
      have hrest : rest = [] := List.eq_nil_of_length_eq_zero (by omega)
      subst hrest
      have hr0 : rowKeyPred key p.handle r0 = true := by
        have hr0m : r0 ∈ rows.filter (rowKeyPred key p.handle) := by rw [hfil]; simp
        exact (List.mem_filter.mp hr0m).2
      simp only [rowKeyPred, Bool.and_eq_true, beq_iff_eq] at hr0
      exact ⟨refreshRow p.followers_count p.estimated_30d_growth now r0, rfl,
        hr0.2, hr0.1, rfl, rfl, rfl, rfl, fun habs => absurd habs (by simp)⟩
  · dsimp only
    rw [List.filter_append, filter_eq_nil_of_not_any hany]
    have hnew : rowKeyPred key p.handle
        ⟨p.handle, key, niche, p.followers_count, p.estimated_30d_growth, true, now, 0⟩
        = true := by simp [rowKeyPred]
    refine ⟨⟨p.handle, key, niche, p.followers_count, p.estimated_30d_growth, true, now, 0⟩,
      ?_, rfl, rfl, rfl, rfl, rfl, rfl, fun _ => rfl⟩
    simp [List.filter_cons, hnew]

/-- C8 helper: `increment_usage` preserves uniqueness. -/
theorem increment_usage_unique (handles : List (List Char)) :
    ∀ rows, UniquePool rows → ∀ key, UniquePool (increment_usage rows handles key) := by
  induction handles with
  | nil => intro rows hinv key; exact hinv
  | cons h rest ih =>
    intro rows hinv key
    rw [increment_usage]
    refine ih _ ?_ key
    intro k2 h2
    rw [modifyFirst_filter_length (rowKeyPred key h) (rowKeyPred k2 h2)
      (fun r => { r with times_used := r.times_used + 1 }) (fun r => rfl)]
    exact hinv k2 h2

/-- C8 counterexample: one `add_peers_to_pool` call whose batch repeats a
handle absent from the pool stores two rows for the same (poolKey, handle)
pair — the session runs with `autoflush=False`, so the second lookup cannot
see the first, still-pending insert, and `peer_pools` has no unique
constraint to reject the duplicate at commit — so not every pool operation
preserves the per-(poolKey, handle) uniqueness invariant. -/
theorem peer_pool_upsert_cex :
    ((add_peers_to_pool [] [⟨['a'], 10, 5⟩, ⟨['a'], 20, 7⟩] "n" "k" 1).1.filter
      (rowKeyPred "k" ['a'])).length = 2 ∧
    (add_peers_to_pool [] [⟨['a'], 10, 5⟩, ⟨['a'], 20, 7⟩] "n" "k" 1).2 = 2 ∧
    ¬ UniquePool (add_peers_to_pool [] [⟨['a'], 10, 5⟩, ⟨['a'], 20, 7⟩] "n" "k" 1).1 :=
  ⟨by decide, by decide, fun h => absurd (h "k" ['a']) (by decide)⟩

/-- C8: adding the same peer handle to the same poolKey in two successive
`add_peers_to_pool` calls leaves exactly one stored row for that
(poolKey, handle) pair, with metrics refreshed from the second call,
`last_validated` set to the second call's time and `is_valid` true — the
first call's commit makes its row visible to the second call's lookup; a
peer inserted into a pool that did not contain it starts with
`times_used = 0`; and the per-(poolKey, handle) uniqueness invariant is
preserved by upserts of any batch with pairwise distinct handles, by usage
increments, by invalidation, and by both cleanups.  (It is not preserved by
a batch repeating an absent handle: see the counterexample above.) -/
theorem peer_pool_upsert (rows : List PeerPoolRow) (p1 p2 : PeerInput)
    (niche1 niche2 key : String) (now1 now2 : Int)
    (hinv : UniquePool rows) (hsame : p2.handle = p1.handle) :
    (∃ r, (add_peers_to_pool (add_peers_to_pool rows [p1] niche1 key now1).1
        [p2] niche2 key now2).1.filter (rowKeyPred key p1.handle) = [r] ∧
      r.follower_count = p2.followers_count ∧ r.growth_rate = p2.estimated_30d_growth ∧
      r.last_validated = now2 ∧ r.is_valid = true) ∧
    (rows.filter (rowKeyPred key p1.handle) = [] →
      ∃ r, (add_peers_to_pool rows [p1] niche1 key now1).1.filter
        (rowKeyPred key p1.handle) = [r] ∧ r.times_used = 0) ∧
    (∀ peers niche now, (peers.map PeerInput.handle).Nodup →
      UniquePool (add_peers_to_pool rows peers niche key now).1) ∧
    (∀ handles, UniquePool (increment_usage rows handles key)) ∧
    (∀ h, UniquePool (mark_invalid rows h key)) ∧
    (∀ thr, UniquePool (cleanup_stale_peers rows thr).1) ∧
    UniquePool (cleanup_invalid_peers rows).1 := by
  refine ⟨?_, ?_, ?_, ?_, ?_, ?_, ?_⟩
  · have hinv1 : UniquePool (add_peers_to_pool rows [p1] niche1 key now1).1 :=
      (add_single_unique hinv niche1 key p1 now1).1
    have h2 := add_single_filter_self hinv1 niche2 key p2 now2
    rw [hsame] at h2
    obtain ⟨r2, hr2fil, -, -, hf, hg, hl, hv, -⟩ := h2
    exact ⟨r2, hr2fil, hf, hg, hl, hv⟩
  · intro hempty
    obtain ⟨r1, hfil, -, -, -, -, -, -, hnew⟩ :=
      add_single_filter_self hinv niche1 key p1 now1
    exact ⟨r1, hfil, hnew hempty⟩
  · intro peers niche now hnodup
    exact add_peers_unique key peers hnodup rows hinv niche now
  · intro handles
    exact increment_usage_unique handles rows hinv key
  · intro h k2 h2
    unfold mark_invalid
    rw [modifyFirst_filter_length (rowKeyPred key h) (rowKeyPred k2 h2)
      (fun r => { r with is_valid := false }) (fun r => rfl)]
    exact hinv k2 h2
  · intro thr k2 h2
    have hsub : List.Sublist (((cleanup_stale_peers rows thr).1).filter (rowKeyPred k2 h2))
        (rows.filter (rowKeyPred k2 h2)) :=
      List.Sublist.filter _ (List.filter_sublist rows)
    exact le_trans (List.Sublist.length_le hsub) (hinv k2 h2)
  · intro k2 h2
    have hsub : List.Sublist (((cleanup_invalid_peers rows).1).filter (rowKeyPred k2 h2))
        (rows.filter (rowKeyPred k2 h2)) :=
      List.Sublist.filter _ (List.filter_sublist rows)
    exact le_trans (List.Sublist.length_le hsub) (hinv k2 h2)

/-- C8 witness: the upsert theorem at an empty pool and a repeated handle. -/
theorem peer_pool_upsert_witness :
    UniquePool ([] : List PeerPoolRow) ∧
    (⟨['a'], 20, 7⟩ : PeerInput).handle = (⟨['a'], 10, 5⟩ : PeerInput).handle ∧
    (∃ r, (add_peers_to_pool (add_peers_to_pool [] [⟨['a'], 10, 5⟩] "n" "k" 1).1
        [⟨['a'], 20, 7⟩] "n" "k" 2).1.filter (rowKeyPred "k" ['a']) = [r] ∧
      r.follower_count = 20 ∧ r.growth_rate = 7 ∧
      r.last_validated = 2 ∧ r.is_valid = true) :=
  ⟨fun _ _ => by simp, rfl,
    (peer_pool_upsert [] ⟨['a'], 10, 5⟩ ⟨['a'], 20, 7⟩ "n" "n" "k" 1 2
      (fun _ _ => by simp) rfl).1⟩

/-- The `ORDER BY times_used DESC, last_validated DESC` comparator. -/
def peerOrder (a b : PeerPoolRow) : Bool :=
  b.times_used < a.times_used ||
    (b.times_used == a.times_used && decide (b.last_validated ≤ a.last_validated))

/-- Insertion step of the ordering. -/
def insertSorted (r : PeerPoolRow) : List PeerPoolRow → List PeerPoolRow
  | [] => [r]
  | x :: xs => if peerOrder r x then r :: x :: xs else x :: insertSorted r xs

/-- Stable sort along `peerOrder`. -/
def sortPeers : List PeerPoolRow → List PeerPoolRow
  | [] => []
  | x :: xs => insertSorted x (sortPeers xs)

/-- `PeerPoolManager.get_peers_from_pool`: filter to the derived pool key,
optionally require fresh validity, order by popularity then recency, fetch
`2 × count` rows, return the first `count` handles (empty list = pool
MISS). -/
def get_peers_from_pool (rows : List PeerPoolRow) (niche : String)
    (followers : Nat) (count : Nat) (require_valid : Bool)
    (now validation : Int) : List (List Char) :=
  let key := generate_pool_key niche followers
  let q := rows.filter fun r => r.pool_key == key
  let q2 := if require_valid then
      q.filter fun r => r.is_valid && decide (now - validation < r.last_validated)
    else q
  let peers := (sortPeers q2).take (count * 2)
  if peers.isEmpty then [] else (peers.take count).map (·.handle)

/-! ### Storage-failure swallowing (C10)

Each storage operation wraps its body in `try/except Exception`; the handler
logs, closes the session (rolling back any uncommitted work for the writers)
and returns the operation's MISS value: `None` for the tweet-cache read, `[]`
for the pool read, `0` for `add_peers_to_pool`.  The flag models whether the
storage layer raised anywhere inside the body; rollback discards every
uncommitted row, so the table is returned unchanged. -/

/-- `get_cached_tweets` with its exception handler. -/
def get_cached_tweets_f (storageFails : Bool) (rows : List TweetsCacheRow)
    (handle : List Char) (now ttl : Int) : Option String × List TweetsCacheRow :=
  if storageFails then (none, rows) else get_cached_tweets rows handle now ttl

/-- `get_peers_from_pool` with its exception handler. -/
def get_peers_from_pool_f (storageFails : Bool) (rows : List PeerPoolRow)
    (niche : String) (followers count : Nat) (require_valid : Bool)
    (now validation : Int) : List (List Char) :=
  if storageFails then []
  else get_peers_from_pool rows niche followers count require_valid now validation

/-- `add_peers_to_pool` with its exception handler and rollback. -/
def add_peers_to_pool_f (storageFails : Bool) (rows : List PeerPoolRow)
    (peers : List PeerInput) (niche key : String) (now : Int) :
    List PeerPoolRow × Nat :=
  if storageFails then (rows, 0) else add_peers_to_pool rows peers niche key now

/-- C10: every storage exception is swallowed into the operation's MISS
value — a failing tweet-cache read returns `None`, a failing pool read
returns `[]`, a failing `add_peers_to_pool` returns 0 with the table rolled
back — and each of these outputs is exactly what the same call produces on an
ordinary miss (empty store / empty batch), so callers cannot distinguish a
storage failure from a miss. -/
theorem storage_failures_swallowed (rows : List TweetsCacheRow)
    (pool : List PeerPoolRow) (handle : List Char) (now ttl : Int)
    (peers : List PeerInput) (niche key : String) (followers count : Nat)
    (rv : Bool) (vnow vdays pnow : Int) :
    get_cached_tweets_f true rows handle now ttl = (none, rows) ∧
    (get_cached_tweets_f true rows handle now ttl).1
      = (get_cached_tweets [] handle now ttl).1 ∧
    get_peers_from_pool_f true pool niche followers count rv vnow vdays = [] ∧
    get_peers_from_pool_f true pool niche followers count rv vnow vdays
      = get_peers_from_pool [] niche followers count rv vnow vdays ∧
    add_peers_to_pool_f true pool peers niche key pnow = (pool, 0) ∧
    add_peers_to_pool_f true pool peers niche key pnow
      = add_peers_to_pool pool [] niche key pnow := by
  refine ⟨rfl, rfl, rfl, ?_, rfl, rfl⟩
  cases rv <;> simp [get_peers_from_pool_f, get_peers_from_pool, sortPeers]

/-! ### Orchestrator (`AnalysisService`)

`run_full_analysis` is a sequential composition: user lookup, profile
resolution, peer resolution, insight generation, then — only then — the
`Analysis` row is added and committed.  There is no `except` clause, only a
`finally` that closes the session, so any exception propagates to the caller
unchanged and the `Analysis` insert is never reached.  Each step's outcome is
part of the environment; the step types are opaque. -/

/-- Error surfaced by `run_full_analysis`: the `ValueError` for an unknown
user, or whatever exception the failing step raised. -/
inductive RunError (ε : Type) where
  | userNotFound
  | step (e : ε)
deriving DecidableEq

/-- Environment of one `run_full_analysis` call: whether the user row
exists, and the outcome of each sub-step. -/
structure RunEnv (ε α β γ : Type) where
  userFound : Bool
  profileStep : Except ε α
  peersStep : Except ε β
  insightsStep : Except ε γ

/-- `AnalysisService.run_full_analysis`: the returned value or propagated
error, paired with whether the top-level `Analysis` record was persisted. -/
def run_full_analysis {ε α β γ : Type} (env : RunEnv ε α β γ) :
    Except (RunError ε) (α × β × γ) × Bool :=
  if env.userFound then
    match env.profileStep with
    | .error e => (.error (.step e), false)
    | .ok prof =>
      match env.peersStep with
      | .error e => (.error (.step e), false)
      | .ok peers =>
        match env.insightsStep with
        | .error e => (.error (.step e), false)
        | .ok ins => (.ok (prof, peers, ins), true)
  else (.error .userNotFound, false)

/-- C9: if any step of `run_full_analysis` fails, the run surfaces that
step's error unchanged and no `Analysis` record is persisted; the record is
persisted exactly when the user exists and every step succeeded — and then
the combined result is returned. -/
theorem run_full_analysis_aborts {ε α β γ : Type} (env : RunEnv ε α β γ)
    (huser : env.userFound = true) :
    (∀ e, env.profileStep = .error e →
      run_full_analysis env = (.error (.step e), false)) ∧
    (∀ p e, env.profileStep = .ok p → env.peersStep = .error e →
      run_full_analysis env = (.error (.step e), false)) ∧
    (∀ p q e, env.profileStep = .ok p → env.peersStep = .ok q →
      env.insightsStep = .error e →
      run_full_analysis env = (.error (.step e), false)) ∧
    ((run_full_analysis env).2 = true ↔
      ∃ p q i, env.profileStep = .ok p ∧ env.peersStep = .ok q ∧
        env.insightsStep = .ok i) ∧
    (∀ p q i, env.profileStep = .ok p → env.peersStep = .ok q →
      env.insightsStep = .ok i →
      run_full_analysis env = (.ok (p, q, i), true)) := by
  unfold run_full_analysis
  rw [huser]
  refine ⟨?_, ?_, ?_, ?_, ?_⟩
  · intro e he; rw [he]; rfl
  · intro p e hp he; rw [hp, he]; rfl
  · intro p q e hp hq he; rw [hp, hq, he]; rfl
  · constructor
    · intro h
      cases hp : env.profileStep with
      | error e => rw [hp] at h; simp at h
      | ok p =>
        cases hq : env.peersStep with
        | error e => rw [hp, hq] at h; simp at h
        | ok q =>
          cases hi : env.insightsStep with
          | error e => rw [hp, hq, hi] at h; simp at h
          | ok i => exact ⟨p, q, i, rfl, rfl, rfl⟩
    · rintro ⟨p, q, i, hp, hq, hi⟩
      rw [hp, hq, hi]; rfl
  · intro p q i hp hq hi; rw [hp, hq, hi]; rfl

/-- C9 witness: the abort theorem at a run whose peer step fails. -/
theorem run_full_analysis_aborts_witness :
    (⟨true, .ok 1, .error "grok down", .ok 3⟩ :
      RunEnv String Nat Nat Nat).userFound = true ∧
    run_full_analysis (⟨true, .ok 1, .error "grok down", .ok 3⟩ :
      RunEnv String Nat Nat Nat) = (.error (.step "grok down"), false) :=
  ⟨rfl, (run_full_analysis_aborts (⟨true, .ok 1, .error "grok down", .ok 3⟩ :
      RunEnv String Nat Nat Nat) rfl).2.1 1 "grok down" rfl rfl⟩

/-! ### Peer resolution (`AnalysisService._get_or_create_peers`)

On a per-user cache hit (not forced, ≥ 5 fresh `PeerMatch` rows) the cached
profiles are returned.  Otherwise the method calls `PeerMatcher.find_peers`
directly — a Grok call — deletes the old per-user matches and saves the new
ones with a 24h expiry.  Neither `AnalysisService` nor `PeerMatcher` imports
`PeerPoolManager`: the shared `peer_pools` table is part of the database
state, but no step of the orchestrator reads it or writes to it. -/

/-- The observable steps of one peer-resolution call. -/
inductive PeerStep where
  | queryPerUserCache
  | queryPeerPool
  | aiDiscovery
  | addToPeerPool
  | deleteOldPeerMatches
  | savePeerMatches
deriving DecidableEq

/-- `_get_or_create_peers`: returned peer profiles and the step trace.
`cached` models what the fresh-rows `PeerMatch` query (limit 5) returned;
`ppool` is the shared pool table, which the code never consults. -/
def get_or_create_peers {α : Type} (ppool : List PeerPoolRow) (forceRefresh : Bool)
    (cached discovered : List α) : List α × List PeerStep :=
  if ¬forceRefresh = true ∧ 5 ≤ cached.length then
    (cached, [.queryPerUserCache])
  else
    (discovered,
      (if forceRefresh then [] else [PeerStep.queryPerUserCache]) ++
        [.aiDiscovery, .deleteOldPeerMatches, .savePeerMatches])

/-- C1 counterexample: a run with an empty per-user cache (a peer-cache miss)
while the shared pool holds a fresh valid entry for the matching key — the
trace still invokes AI discovery, never queries the PeerPool and never adds
the discovered peers to it. -/
theorem peer_resolution_skips_pool_cex :
    PeerStep.aiDiscovery ∈
      (get_or_create_peers
        [⟨['p'], "finance_2500-12500", "finance", 6000, 5, true, 0, 3⟩]
        false ([] : List Nat) [7]).2 ∧
    PeerStep.queryPeerPool ∉
      (get_or_create_peers
        [⟨['p'], "finance_2500-12500", "finance", 6000, 5, true, 0, 3⟩]
        false ([] : List Nat) [7]).2 ∧
    PeerStep.addToPeerPool ∉
      (get_or_create_peers
        [⟨['p'], "finance_2500-12500", "finance", 6000, 5, true, 0, 3⟩]
        false ([] : List Nat) [7]).2 ∧
    (get_or_create_peers
        [⟨['p'], "finance_2500-12500", "finance", 6000, 5, true, 0, 3⟩]
        false ([] : List Nat) [7]).1 = [7] := by decide

/-- C1 amended: on every per-user peer-cache miss (fewer than 5 fresh cached
assignments, or forceRefreshPeers set) the orchestrator invokes AI
peer-discovery directly and returns its result; the shared PeerPool is
neither queried nor populated, whatever it contains. -/
theorem peer_resolution_skips_pool {α : Type} (ppool : List PeerPoolRow)
    (forceRefresh : Bool) (cached discovered : List α)
    (hmiss : forceRefresh = true ∨ cached.length < 5) :
    (get_or_create_peers ppool forceRefresh cached discovered).1 = discovered ∧
    PeerStep.aiDiscovery ∈ (get_or_create_peers ppool forceRefresh cached discovered).2 ∧
    PeerStep.queryPeerPool ∉ (get_or_create_peers ppool forceRefresh cached discovered).2 ∧
    PeerStep.addToPeerPool ∉ (get_or_create_peers ppool forceRefresh cached discovered).2 := by
  have hcond : ¬(¬forceRefresh = true ∧ 5 ≤ cached.length) := by
    rcases hmiss with h | h
    · exact fun hc => hc.1 h
    · exact fun hc => by omega
  unfold get_or_create_peers
  rw [if_neg hcond]
  refine ⟨rfl, ?_, ?_, ?_⟩ <;> cases forceRefresh <;> simp

/-- C1 witness: the amended statement at an empty cache and a one-entry
pool. -/
theorem peer_resolution_skips_pool_witness :
    (false = true ∨ ([] : List Nat).length < 5) ∧
    (get_or_create_peers
      [⟨['p'], "finance_2500-12500", "finance", 6000, 5, true, 0, 3⟩]
      false ([] : List Nat) [7]).1 = [7] :=
  ⟨Or.inr (by decide),
    (peer_resolution_skips_pool
      [⟨['p'], "finance_2500-12500", "finance", 6000, 5, true, 0, 3⟩]
      false ([] : List Nat) [7] (Or.inr (by decide))).1⟩

end LevelX
